import Mathlib

/-!
Shallow embedding of the `ms_to_camelot` extraction/normalization engine
(`parser_mainstage.py`, `models.py`, `emit_camelot.py`) and proofs about it.

Decoded property-list documents are modelled by the inductive `Value`
(maps, sequences, scalars, byte blobs).  Python operations that can raise
are embedded in `Except String`; operations that cannot raise are plain
functions.  Python floats are modelled as rationals (only identity
passthrough and int-to-float widening occur in the code).
-/

namespace MSC

/-- A decoded document value: the tree of maps, sequences, scalars and
blobs that `plistlib` produces. -/
inductive Value where
  | vnull
  | vbool (b : Bool)
  | vint (n : Int)
  | vreal (q : Rat)
  | vstr (s : String)
  | vbytes (bs : List Nat)
  | vlist (xs : List Value)
  | vdict (kvs : List (String × Value))

/-- Python truthiness of a value. -/
def truthy : Value → Bool
  | .vnull => false
  | .vbool b => b
  | .vint n => n ≠ 0
  | .vreal q => q ≠ 0
  | .vstr s => s ≠ ""
  | .vbytes bs => bs ≠ []
  | .vlist xs => !xs.isEmpty
  | .vdict kvs => !kvs.isEmpty

/-- Python `a or b`: the first operand when truthy, otherwise the second. -/
def pyOr (a b : Value) : Value := if truthy a then a else b

/-- Dictionary lookup (`d[k]` / `d.get(k)` hit): first binding of the key. -/
def dget : List (String × Value) → String → Option Value
  | [], _ => none
  | (k', v) :: rest, k => if k' = k then some v else dget rest k

/-- Python `d.get(k)`: a missing key yields `None`. -/
def getOr (kvs : List (String × Value)) (k : String) : Value :=
  (dget kvs k).getD .vnull

/-- Python `d[k] = v`: replace the value at an existing key in place,
otherwise append the binding. -/
def dset : List (String × Value) → String → Value → List (String × Value)
  | [], k, v => [(k, v)]
  | (k', v') :: rest, k, v =>
      if k' = k then (k', v) :: rest else (k', v') :: dset rest k v

/-! ### Python string primitives used by `normalize_name` and the heuristics -/

/-- The whitespace characters recognised by Python `str.split()` /
`str.strip()`: the full Unicode set (code points with `str.isspace()` true):
TAB..CR, FS..US, space, NEL, NBSP, ogham space mark, the U+2000..U+200A
spaces, line and paragraph separator, narrow no-break space, medium
mathematical space, and ideographic space. -/
def isPySpace (c : Char) : Bool :=
  (0x09 ≤ c.toNat && c.toNat ≤ 0x0d) || (0x1c ≤ c.toNat && c.toNat ≤ 0x20) ||
  c.toNat = 0x85 || c.toNat = 0xa0 || c.toNat = 0x1680 ||
  (0x2000 ≤ c.toNat && c.toNat ≤ 0x200a) || c.toNat = 0x2028 ||
  c.toNat = 0x2029 || c.toNat = 0x202f || c.toNat = 0x205f || c.toNat = 0x3000

/-- Substring test, Python `pat in s` on character lists. -/
def hasSub (pat : List Char) : List Char → Bool
  | [] => pat.isEmpty
  | c :: cs => pat.isPrefixOf (c :: cs) || hasSub pat cs

/-- Python `pat in s` on strings. -/
def strContains (pat s : String) : Bool := hasSub pat.toList s.toList

/-- Python `s.lower()` (ASCII case fold; the classification keywords are ASCII). -/
def lowerStr (s : String) : String := String.mk (s.toList.map Char.toLower)

/-- The em dash U+2014 used by `normalize_name`. -/
def emDash : Char := '—'

/-- The replacement text `" — "` for path separators in `normalize_name`. -/
def repDash : List Char := [' ', '—', ' ']

/-- Python `s.replace(c, rep)` for a single-character pattern. -/
def replaceChar (c : Char) (rep : List Char) : List Char → List Char
  | [] => []
  | a :: rest =>
      if a = c then rep ++ replaceChar c rep rest else a :: replaceChar c rep rest

/-- Python `s.replace(" —  ", " — ")`: leftmost, non-overlapping scan. -/
def replaceEmSpSp : List Char → List Char
  | ' ' :: '—' :: ' ' :: ' ' :: rest => ' ' :: '—' :: ' ' :: replaceEmSpSp rest
  | a :: rest => a :: replaceEmSpSp rest
  | [] => []

/-- Python `s.replace("  — ", " — ")`: leftmost, non-overlapping scan. -/
def replaceSpSpEm : List Char → List Char
  | ' ' :: ' ' :: '—' :: ' ' :: rest => ' ' :: '—' :: ' ' :: replaceSpSpEm rest
  | a :: rest => a :: replaceSpSpEm rest
  | [] => []

/-- Worker for Python `str.split()`: `acc` is the reversed current word. -/
def splitAux : List Char → List Char → List (List Char)
  | [], acc => if acc.isEmpty then [] else [acc.reverse]
  | c :: cs, acc =>
      if isPySpace c then
        if acc.isEmpty then splitAux cs [] else acc.reverse :: splitAux cs []
      else splitAux cs (c :: acc)

/-- Python `s.split()`: maximal runs of non-whitespace characters. -/
def pySplit (l : List Char) : List (List Char) := splitAux l []

/-- Python `" ".join(words)`. -/
def joinWords : List (List Char) → List Char
  | [] => []
  | [w] => w
  | w :: ws => w ++ ' ' :: joinWords ws

/-- Python `s.strip()`: drop whitespace from both ends. -/
def pyStrip (l : List Char) : List Char :=
  ((l.dropWhile isPySpace).reverse.dropWhile isPySpace).reverse

/-- `normalize_name` on an actual string: replace `\` and `/` by `" — "`,
collapse the two space-around-dash patterns, collapse whitespace runs, trim. -/
def normalizeName (s : String) : String :=
  let l1 := replaceChar '\\' repDash s.toList
  let l2 := replaceChar '/' repDash l1
  let l3 := replaceSpSpEm (replaceEmSpSp l2)
  String.mk (pyStrip (joinWords (pySplit l3)))

/-- `normalize_name` on an arbitrary value: non-strings normalize to `""`. -/
def normalizeNameV : Value → String
  | .vstr s => normalizeName s
  | _ => ""

/-! ### `coerce_int` and Python value rendering -/

/-- Truncation toward zero, the behaviour of Python `int(float)`. -/
def pyTrunc (q : Rat) : Int := if q < 0 then -(Int.floor (-q)) else Int.floor q

/-- Digit-group parser for Python `int(str)`: every underscore-separated
group must be a non-empty run of decimal digits. -/
def parseDigits (l : List Char) : Option Nat :=
  if (!l.isEmpty) && (l.splitOn '_').all (fun g => !g.isEmpty && g.all Char.isDigit)
  then some ((l.filter (fun c => !(c = '_'))).foldl (fun a c => a * 10 + (c.toNat - 48)) 0)
  else none

/-- Python `int(str)`: strip whitespace, optional sign, decimal digits. -/
def parseIntPy (l : List Char) : Option Int :=
  match pyStrip l with
  | '+' :: rest => (parseDigits rest).map (fun n => (n : Int))
  | '-' :: rest => (parseDigits rest).map (fun n => -(n : Int))
  | rest => (parseDigits rest).map (fun n => (n : Int))

/-- `coerce_int`: best-effort `int(v)`, `None` when the conversion raises. -/
def coerce_int : Value → Option Int
  | .vint n => some n
  | .vbool b => some (if b then 1 else 0)
  | .vreal q => some (pyTrunc q)
  | .vstr s => parseIntPy s.toList
  | .vbytes bs => parseIntPy (bs.map Char.ofNat)
  | _ => none

/-- A single-quote string, used when rendering Python `repr`. -/
def quoteMark : String := String.mk [Char.ofNat 39]

/-- Quoted rendering of a string, as Python `repr` does (escapes elided;
no classification heuristic inspects quoted output). -/
def quoteStr (s : String) : String := quoteMark ++ s ++ quoteMark

mutual

/-- Python `repr(v)`.  Floats are rendered through their rational model;
only `str`-typed class fields influence any downstream decision. -/
def pyRepr : Value → String
  | .vnull => "None"
  | .vbool true => "True"
  | .vbool false => "False"
  | .vint n => toString n
  | .vreal q => toString q
  | .vstr s => quoteStr s
  | .vbytes bs => "b" ++ quoteStr (String.mk (bs.map Char.ofNat))
  | .vlist xs => "[" ++ pyReprSeq xs ++ "]"
  | .vdict kvs => "\x7b" ++ pyReprKVs kvs ++ "\x7d"

/-- Comma-joined reprs of a sequence. -/
def pyReprSeq : List Value → String
  | [] => ""
  | [v] => pyRepr v
  | v :: vs => pyRepr v ++ ", " ++ pyReprSeq vs

/-- Comma-joined reprs of dictionary items. -/
def pyReprKVs : List (String × Value) → String
  | [] => ""
  | [(k, v)] => quoteStr k ++ ": " ++ pyRepr v
  | (k, v) :: kvs => quoteStr k ++ ": " ++ pyRepr v ++ ", " ++ pyReprKVs kvs

end

/-- Python `str(v)`: identity on strings, `repr` rendering otherwise. -/
def pyToString : Value → String
  | .vstr s => s
  | v => pyRepr v

/-! ### The normalized domain model (`models.py`) -/

/-- `KeyRange`: inclusive MIDI note bounds. -/
structure KeyRange where
  low : Int
  high : Int

/-- `Plugin`: an instrument or effect reference. -/
structure Plugin where
  name : String
  manufacturer : Option String
  kind : Option String
  identifier : Option String
  params : List (String × Value)

/-- `ChannelStrip`: one instrument/audio/MIDI channel within a patch. -/
structure ChannelStrip where
  name : String
  kind : String
  midi_channel : Option Int
  key_range : Option KeyRange
  transpose : Int
  plugins : List Plugin
  notes : List (String × Value)

/-- `Patch`: a named performance configuration. -/
structure Patch where
  name : String
  channel_strips : List ChannelStrip
  attributes : List (String × Value)

/-- `Set`: a named grouping of patches. -/
structure Set where
  name : String
  patches : List Patch
  attributes : List (String × Value)

/-- `Concert`: the root entity. -/
structure Concert where
  name : String
  sets : List Set
  attributes : List (String × Value)

/-- `NOTE_NAMES` from `models.py`. -/
def NOTE_NAMES : List String :=
  ["C", "C#", "D", "D#", "E", "F"] ++ ["F#", "G", "G#", "A", "A#", "B"]

/-- `midi_to_note`: clamp into 0..127, then name plus octave (60 maps to C4). -/
def midi_to_note (n : Int) : String :=
  let m := max 0 (min 127 n)
  (NOTE_NAMES.getD (m % 12).toNat "") ++ toString (m / 12 - 1)

/-- `KeyRange.to_dict`. -/
def KeyRange.to_dict (kr : KeyRange) : Value :=
  .vdict [("low", .vint kr.low), ("high", .vint kr.high),
          ("lowName", .vstr (midi_to_note kr.low)),
          ("highName", .vstr (midi_to_note kr.high))]

/-! ### Heuristic tree walker (`parser_mainstage.py`)

Python operations that raise on unexpected shapes are embedded in
`Except String`; the error string names the Python exception. -/

/-- Python `v.lower()` on an arbitrary value: strings and byte strings
have the method, everything else raises `AttributeError`. -/
def pyLowerE : Value → Except String Value
  | .vstr s => .ok (.vstr (lowerStr s))
  | .vbytes bs => .ok (.vbytes (bs.map (fun b => if 65 ≤ b && b ≤ 90 then b + 32 else b)))
  | _ => .error "AttributeError: lower"

/-- Python `v.startswith(pat)` for a string pattern: byte strings raise
`TypeError`, non-strings raise `AttributeError`. -/
def pyStartsWithE (v : Value) (pat : String) : Except String Bool :=
  match v with
  | .vstr s => .ok (pat.toList.isPrefixOf s.toList)
  | .vbytes _ => .error "TypeError: startswith"
  | _ => .error "AttributeError: startswith"

/-- `node_class`: `str(get class or _class or isa or type or "")`. -/
def node_class (kvs : List (String × Value)) : String :=
  pyToString (pyOr (getOr kvs "class") (pyOr (getOr kvs "_class")
    (pyOr (getOr kvs "isa") (pyOr (getOr kvs "type") (.vstr "")))))

/-- `node_name`: first truthy of name/Name/title/Title, kept only if a string. -/
def node_name (kvs : List (String × Value)) : Option String :=
  match pyOr (getOr kvs "name") (pyOr (getOr kvs "Name")
      (pyOr (getOr kvs "title") (getOr kvs "Title"))) with
  | .vstr s => some s
  | _ => none

/-- Python `node_name(node) or dflt` (the empty string is falsy). -/
def nameOr (kvs : List (String × Value)) (dflt : String) : String :=
  match node_name kvs with
  | some s => if s = "" then dflt else s
  | none => dflt

/-- `classify_node`: class/type string containment of "set"/"patch",
then the name heuristic, then the structural children check. -/
def classify_node : Value → Except String String
  | .vdict kvs => do
      let cls := lowerStr (node_class kvs)
      let nameL ← pyLowerE (pyOr (getOr kvs "name") (pyOr (getOr kvs "Name") (.vstr "")))
      if strContains "set" cls then pure "set"
      else do
        let sw ← pyStartsWithE nameL "set "
        if sw then pure "set"
        else if strContains "patch" cls then pure "patch"
        else
          match pyOr (getOr kvs "children") (getOr kvs "_children") with
          | .vlist _ => pure "set"
          | _ => pure "unknown"
  | _ => .error "AttributeError: classify_node on non-dict"

/-- `infer_strip_kind`: substring checks on the lowered type string, then
instrument-indicative keys, defaulting to `"instrument"`.  A truthy
non-string type field raises. -/
def infer_strip_kind (kvs : List (String × Value)) : Except String String :=
  match pyOr (getOr kvs "stripType") (pyOr (getOr kvs "type") (.vstr "")) with
  | .vstr s =>
      let kind := lowerStr s
      if strContains "inst" kind then .ok "instrument"
      else if strContains "audio" kind then .ok "audio"
      else if strContains "midi" kind then .ok "midi"
      else if ["instrument", "softwareInstrument", "instrumentPlugin"].any
          (fun k => (dget kvs k).isSome) then .ok "instrument"
      else .ok "instrument"
  | .vbytes _ => .error "TypeError: str containment in bytes"
  | _ => .error "AttributeError: lower"

/-- Clamp a MIDI note number into 0..127. -/
def clamp127 (n : Int) : Int := max 0 (min 127 n)

/-- `infer_key_range`: first ranked (low, high) alias pair where both
coerce to integers, clamped independently. -/
def infer_key_range (kvs : List (String × Value)) : Option KeyRange :=
  [("keyRangeLow", "keyRangeHigh"), ("keyLow", "keyHigh"),
   ("noteLow", "noteHigh"), ("lowKey", "highKey")].findSome?
    (fun p => match coerce_int (getOr kvs p.1), coerce_int (getOr kvs p.2) with
      | some lo, some hi => some (KeyRange.mk (clamp127 lo) (clamp127 hi))
      | _, _ => none)

/-- Python `s.strip()` on strings. -/
def pyStripStr (s : String) : String := String.mk (pyStrip s.toList)

/-- `_first_str`: first key whose value is a string with non-empty strip. -/
def _first_str (kvs : List (String × Value)) (keys : List String) : Option String :=
  keys.findSome? (fun k => match dget kvs k with
    | some (.vstr s) => if pyStripStr s = "" then none else some (pyStripStr s)
    | _ => none)

/-- One plugin record from a dict, via ranked key aliases. -/
def pluginOfDict (p : List (String × Value)) : Plugin :=
  ⟨(_first_str p ["name", "Name", "title", "Title"]).getD "Plugin",
   _first_str p ["manufacturer", "maker"],
   _first_str p ["type", "kind"],
   _first_str p ["identifier", "bundleID", "componentID"],
   match dget p "params" with | some (.vdict q) => q | _ => []⟩

/-- `infer_plugins`: instrument-slot dicts plus dict entries of the
inserts/audioFX list. -/
def infer_plugins (kvs : List (String × Value)) : List Plugin :=
  let possibles1 := ["instrument", "instrumentPlugin", "softwareInstrument"].filterMap
      (fun k => match dget kvs k with | some (.vdict p) => some p | _ => none)
  let possibles2 := match pyOr (getOr kvs "inserts") (getOr kvs "audioFX") with
    | .vlist xs => xs.filterMap (fun x => match x with | .vdict p => some p | _ => none)
    | _ => []
  (possibles1 ++ possibles2).map pluginOfDict

/-- `parse_channel_strip` on one raw strip element. -/
def parse_channel_strip : Value → Except String ChannelStrip
  | .vdict kvs => do
      let kind ← infer_strip_kind kvs
      pure ⟨normalizeNameV (pyOr (getOr kvs "name") (pyOr (getOr kvs "stripName")
              (pyOr (getOr kvs "Name") (.vstr "Strip")))),
            kind,
            coerce_int (pyOr (getOr kvs "midiChannel") (getOr kvs "midi_channel")),
            infer_key_range kvs,
            (coerce_int (pyOr (getOr kvs "transpose") (.vint 0))).getD 0,
            infer_plugins kvs,
            [("_sourceClass", pyOr (getOr kvs "class") (getOr kvs "_class"))]⟩
  | _ => .error "AttributeError: parse_channel_strip on non-dict"

/-- Keys whose presence in a list head makes the list look like strips. -/
def stripIndicative : List String := ["stripType", "strip", "instrument", "plugins"]

/-- The strip-collection loop of `extract_channel_strips` over the
candidate sequence. -/
def parseStrips : List Value → Except String (List ChannelStrip)
  | [] => pure []
  | v :: vs => do
      let cs ← parse_channel_strip v
      let rest ← parseStrips vs
      pure (cs :: rest)

/-- The candidate sequence of `extract_channel_strips`: ranked strip
keys, then — when that leaves no candidates — a scan of all list-valued
fields whose first element looks like a strip. -/
def stripCandidates (kvs : List (String × Value)) : List Value :=
  let primary := ["channelStrips", "channel_strips", "strips", "mixerStrips"].findSome?
      (fun k => match dget kvs k with | some (.vlist xs) => some xs | _ => none)
  let cands0 := primary.getD []
  if cands0.isEmpty then
    (kvs.findSome? (fun kv => match kv.2 with
      | .vlist (Value.vdict p :: xs) =>
          if stripIndicative.any (fun s => (dget p s).isSome)
          then some (Value.vdict p :: xs) else none
      | _ => none)).getD []
  else cands0

/-- `extract_channel_strips`: parse every candidate strip element. -/
def extract_channel_strips : Value → Except String (List ChannelStrip)
  | .vdict kvs => parseStrips (stripCandidates kvs)
  | _ => .error "AttributeError"

/-- Python `isinstance(t, (int, float))` then `float(t)` (bool is an int
subtype in Python). -/
def numOfValue : Value → Option Rat
  | .vint n => some (n : Rat)
  | .vbool b => some (if b then 1 else 0)
  | .vreal q => some q
  | _ => none

/-- `infer_bpm_from_node`: direct tempo, then engineNode tempo, then a
one-level scan of dict-valued fields. -/
def infer_bpm_from_node (kvs : List (String × Value)) : Option Rat :=
  match numOfValue (getOr kvs "tempo") with
  | some t => some t
  | none =>
    match (match dget kvs "engineNode" with
           | some (.vdict eng) => numOfValue (getOr eng "tempo")
           | _ => none) with
    | some t => some t
    | none => kvs.findSome? (fun kv => match kv.2 with
        | .vdict d => numOfValue (getOr d "tempo")
        | _ => none)

/-- `extract_patch`: normalized name, strips, source class, optional bpm. -/
def extract_patch : Value → Except String Patch
  | node@(.vdict kvs) => do
      let strips ← extract_channel_strips node
      let attrs := [("_sourceClass", Value.vstr (node_class kvs))]
      pure ⟨normalizeName (nameOr kvs "Patch"), strips,
            match infer_bpm_from_node kvs with
            | some b => dset attrs "bpm" (Value.vreal b)
            | none => attrs⟩
  | _ => .error "AttributeError"

mutual

/-- `extract_patches_recursive`: classify the node, extract it when it is
a patch, then recurse through children-like list fields. -/
def extract_patches_recursive : Value → Except String (List Patch)
  | node@(.vdict kvs) => do
      let cls ← classify_node node
      let head ← if cls = "patch" then do
          let p ← extract_patch node
          pure [p]
        else pure []
      let r1 ← childPatches kvs "children"
      let r2 ← childPatches kvs "_children"
      let r3 ← childPatches kvs "patches"
      pure (head ++ r1 ++ r2 ++ r3)
  | v => do
      let _ ← classify_node v
      pure []

/-- Recursion through one children-like key (`node.get(key)` must be a
list to be traversed). -/
def childPatches : List (String × Value) → String → Except String (List Patch)
  | [], _ => pure []
  | (k', v) :: rest, k =>
      if k' = k then childLists v
      else childPatches rest k

/-- The `isinstance(ch, list)` dispatch of the child-key traversal. -/
def childLists : Value → Except String (List Patch)
  | .vlist xs => eprList xs
  | _ => pure []

/-- `extract_patches_recursive` over the elements of a child list. -/
def eprList : List Value → Except String (List Patch)
  | [] => pure []
  | v :: vs => do
      let ps ← extract_patches_recursive v
      let rest ← eprList vs
      pure (ps ++ rest)

end

/-- Loop body of `extract_patches_from_set` over the children sequence. -/
def efsChildren : List Value → Except String (List Patch)
  | [] => pure []
  | v :: vs => do
      let cls ← classify_node v
      let ps ← if cls = "patch" then do
          let p ← extract_patch v
          pure [p]
        else extract_patches_recursive v
      let rest ← efsChildren vs
      pure (ps ++ rest)

/-- `extract_patches_from_set`: first truthy children-like field (default
empty), then classify-and-collect each child. -/
def extract_patches_from_set : Value → Except String (List Patch)
  | .vdict kvs =>
      match pyOr (getOr kvs "children") (pyOr (getOr kvs "_children")
          (pyOr (getOr kvs "patches") (.vlist []))) with
      | .vlist xs => efsChildren xs
      | _ => .error "TypeError: children not iterable as dicts"
  | _ => .error "AttributeError"

/-- Probe of `find_patchlist_children`: ranked keys holding a non-empty list. -/
def keyProbe (kvs : List (String × Value)) : Option (List Value) :=
  ["children", "_children", "patches", "sets", "rootChildren", "PatchList"].findSome?
    (fun k => match dget kvs k with
      | some (.vlist xs) => if xs.isEmpty then none else some xs
      | _ => none)

/-- Search of `find_patchlist_children` over the dict's values, with the
recursive probe inlined for each nested dict. -/
def fplcScan : List (String × Value) → Option (List Value)
  | [] => none
  | (_, v) :: rest =>
      match v with
      | .vdict d =>
          (match keyProbe d with
           | some xs => if xs.isEmpty then fplcScan rest else some xs
           | none =>
             match fplcScan d with
             | some ch => if ch.isEmpty then fplcScan rest else some ch
             | none => fplcScan rest)
      | _ => fplcScan rest

/-- `find_patchlist_children`: ranked key probe, then recursion into
dict-valued children. -/
def find_patchlist_children (kvs : List (String × Value)) : Option (List Value) :=
  match keyProbe kvs with
  | some xs => some xs
  | none => fplcScan kvs

/-- One iteration of the root-children loop of `extract_sets_and_patches`:
the sets contributed by one root child. -/
def rootChildSets : Value → Except String (List Set)
  | child@(.vdict kvs) => do
      let cls ← classify_node child
      if cls = "set" then do
        let ps ← extract_patches_from_set child
        pure [⟨normalizeName (nameOr kvs "Set"), ps,
               [("_sourceClass", Value.vstr (node_class kvs))]⟩]
      else if cls = "patch" then do
        let p ← extract_patch child
        pure [⟨p.name, [p], [("_implicit", Value.vbool true)]⟩]
      else do
        let ps ← extract_patches_recursive child
        if ps.isEmpty then pure []
        else pure [⟨nameOr kvs "Set", ps,
                    [("_sourceClass", Value.vstr (node_class kvs))]⟩]
  | v => do
      let _ ← classify_node v
      pure []

/-- The root-children loop of `extract_sets_and_patches`. -/
def rootSets : List Value → Except String (List Set)
  | [] => pure []
  | v :: vs => do
      let s1 ← rootChildSets v
      let rest ← rootSets vs
      pure (s1 ++ rest)

/-- `extract_sets_and_patches`: locate root children, classify each into
sets, with the recursive-scan fallbacks of the source. -/
def extract_sets_and_patches (kvs : List (String × Value)) : Except String (List Set) :=
  let rc := (find_patchlist_children kvs).getD []
  if rc.isEmpty then do
    let ps ← extract_patches_recursive (.vdict kvs)
    pure [⟨"Default", ps, []⟩]
  else do
    let sets ← rootSets rc
    if sets.isEmpty then do
      let ps ← extract_patches_recursive (.vdict kvs)
      pure [⟨"Default", ps, []⟩]
    else pure sets

/-! ### Embedded-archive decoder and legacy channel adapter -/

/-- Python iteration over an arbitrary value: lists yield elements,
strings yield one-character strings, byte strings yield integers, dicts
yield their keys; scalars raise `TypeError`. -/
def iterElems : Value → Except String (List Value)
  | .vlist xs => .ok xs
  | .vstr s => .ok (s.toList.map (fun c => Value.vstr (String.mk [c])))
  | .vbytes bs => .ok (bs.map (fun b => Value.vint (b : Int)))
  | .vdict kvs => .ok (kvs.map (fun kv => Value.vstr kv.1))
  | _ => .error "TypeError: not iterable"

/-- The `$objects` scan of `parse_legacy_channel`: fetch the flat object
array (default empty) and linearly search for the first object exhibiting
both a `lowNote` and a `highNote` attribute. -/
def scanTarget (layer : Value) : Except String (Option (List (String × Value))) := do
  let objects ← match layer with
    | .vdict d => pure ((dget d "$objects").getD (.vlist []))
    | _ => .error "AttributeError: get on non-dict"
  let elems ← iterElems objects
  pure (elems.findSome? (fun o => match o with
    | .vdict od =>
        if (dget od "lowNote").isSome && (dget od "highNote").isSome
        then some od else none
    | _ => none))

/-- Body of the `try` block of `parse_legacy_channel` after the embedded
payload has been decoded to `layer`: scan for the target object, then
extract and clamp the bounds and read the transpose. -/
def scanObjects (layer : Value) : Except String (Option KeyRange × Int) := do
  match ← scanTarget layer with
  | some od =>
      pure (match coerce_int (getOr od "lowNote"), coerce_int (getOr od "highNote") with
            | some lo, some hi => some (KeyRange.mk (clamp127 lo) (clamp127 hi))
            | _, _ => none,
            (coerce_int (getOr od "transpose")).getD 0)
  | none => pure (none, 0)

/-- The key-range/transpose assignments of `parse_legacy_channel`: decode
the `layer` byte payload (when present) and scan it; any failure inside
the `try` block is swallowed, leaving no key range and zero transpose. -/
def legacyKeyTranspose (decode : List Nat → Except String Value)
    (kvs : List (String × Value)) : Option KeyRange × Int :=
  match dget kvs "layer" with
  | some (.vbytes bs) =>
      match (do
          let layer ← decode bs
          scanObjects layer : Except String (Option KeyRange × Int)) with
      | .ok r => r
      | .error _ => (none, 0)
  | _ => (none, 0)

/-- `parse_legacy_channel`, parameterised by the embedded-archive decoder
(`plistlib.loads`, an external collaborator): any failure inside the
`try` block is swallowed, leaving no key range and zero transpose. -/
def parse_legacy_channel (decode : List Nat → Except String Value) (ch : Value)
    (subpatch_name : Option String) : Option ChannelStrip :=
  match ch with
  | .vdict kvs =>
      some ⟨normalizeNameV (pyOr (getOr kvs "Channel_name")
              (pyOr (getOr kvs "name") (.vstr "Strip"))),
            "instrument", none,
            (legacyKeyTranspose decode kvs).1, (legacyKeyTranspose decode kvs).2,
            (match dget kvs "Filename" with
             | some (.vstr s) => if s = "" then [] else [⟨s, none, some "channelStrip", none, []⟩]
             | _ => []),
            [("_legacy", Value.vbool true)] ++
              (match subpatch_name with
               | some sp => if sp = "" then [] else [("subpatch", Value.vstr (normalizeName sp))]
               | none => [])⟩
  | _ => none

/-! ### Session mapper (`emit_camelot.py`) -/

/-- Render an optional string as a value (`None` for absent). -/
def optStrV : Option String → Value
  | some s => .vstr s
  | none => .vnull

/-- `plugin_source`: the first plugin as the source instrument, else a
fallback naming the strip's kind and name. -/
def plugin_source (cs : ChannelStrip) : Value :=
  match cs.plugins with
  | p :: _ => .vdict [("type", .vstr "plugin"), ("name", .vstr p.name),
                      ("manufacturer", optStrV p.manufacturer),
                      ("kind", optStrV p.kind),
                      ("identifier", optStrV p.identifier)]
  | [] => .vdict [("type", .vstr cs.kind), ("name", .vstr cs.name)]

/-- `layer_from_strip`. -/
def layer_from_strip (cs : ChannelStrip) : Value :=
  .vdict [("name", .vstr cs.name),
          ("keyRange", match cs.key_range with | some kr => kr.to_dict | none => .vnull),
          ("transpose", .vint cs.transpose),
          ("source", plugin_source cs),
          ("midiChannel", match cs.midi_channel with | some n => .vint n | none => .vnull),
          ("metadata", .vdict cs.notes)]

/-- `scene_from_patch`: layers only from instrument-kind strips; the bpm
key is removed from the scene metadata when `include_bpm` is false. -/
def scene_from_patch (patch : Patch) (include_bpm : Bool) : Value :=
  let meta := patch.attributes
  let meta := if !include_bpm && (dget meta "bpm").isSome
              then meta.filter (fun kv => !(kv.1 = "bpm")) else meta
  .vdict [("name", .vstr patch.name),
          ("layers", .vlist ((patch.channel_strips.filter
              (fun cs => cs.kind = "instrument")).map layer_from_strip)),
          ("metadata", .vdict meta)]

/-- Python `p.attributes.get("bpm") is not None`: the bpm value when the
key is present and not `None`. -/
def bpmAttr (p : Patch) : Option Value :=
  match dget p.attributes "bpm" with
  | some .vnull => none
  | some v => some v
  | none => none

/-- One flattened-mode song: a single patch with a single scene, the
originating set name recorded in metadata. -/
def flatSong (s : Set) (p : Patch) : Value :=
  let meta := [("_fromSet", Value.vstr s.name)]
  let meta := match bpmAttr p with
    | some v => dset meta "bpm" v
    | none => meta
  .vdict [("name", .vstr p.name),
          ("scenes", .vlist [scene_from_patch p true]),
          ("metadata", .vdict meta)]

/-- One grouped-mode song: a set, with a scene per patch and the bpm of
the first patch that declares one. -/
def groupSong (s : Set) : Value :=
  let meta := s.attributes
  let meta := match s.patches.findSome? bpmAttr with
    | some v => dset meta "bpm" v
    | none => meta
  .vdict [("name", .vstr s.name),
          ("scenes", .vlist (s.patches.map (fun p => scene_from_patch p false))),
          ("metadata", .vdict meta)]

/-- `build_camelot_session`.  The wall-clock reading
(`datetime.now().isoformat()`) is modelled as the explicit argument
`now_iso`, since the Python body reads the clock itself. -/
def build_camelot_session (concert : Concert) (flatten_sets : Bool)
    (source_path : String) (now_iso : String) : Value :=
  .vdict [("version", .vint 1),
          ("name", .vstr concert.name),
          ("createdAt", .vstr now_iso),
          ("source", .vdict [("type", .vstr "mainstage"),
                             ("path", .vstr source_path),
                             ("extractedAt", .vstr now_iso)]),
          ("songs", .vlist (if flatten_sets
            then (concert.sets.map (fun s => s.patches.map (flatSong s))).flatten
            else concert.sets.map groupSong)),
          ("metadata", .vdict concert.attributes)]

/-! ### Readback helpers for stating properties of emitted documents -/

/-- Field lookup on an emitted dictionary document. -/
def dictField (v : Value) (k : String) : Option Value :=
  match v with
  | .vdict kvs => dget kvs k
  | _ => none

/-- List-valued field lookup. -/
def listField (v : Value) (k : String) : Option (List Value) :=
  match dictField v k with
  | some (.vlist xs) => some xs
  | _ => none

/-- The songs array of an emitted session. -/
def sessionSongs (v : Value) : Option (List Value) := listField v "songs"

/-- The scenes array of an emitted song. -/
def songScenes (v : Value) : Option (List Value) := listField v "scenes"

/-- The layers array of an emitted scene. -/
def sceneLayers (v : Value) : Option (List Value) := listField v "layers"

/-- The metadata map of an emitted song or scene. -/
def metaField (v : Value) (k : String) : Option Value :=
  match dictField v "metadata" with
  | some m => dictField m k
  | none => none

/-! ### Auxiliary predicates for the stated properties -/

mutual

/-- Size of a value, for inductive arguments about the walkers. -/
def vsize : Value → Nat
  | .vlist xs => 1 + lsize xs
  | .vdict kvs => 1 + dsize kvs
  | _ => 1

/-- Size of a sequence of values. -/
def lsize : List Value → Nat
  | [] => 0
  | v :: vs => vsize v + lsize vs

/-- Size of a dictionary body. -/
def dsize : List (String × Value) → Nat
  | [] => 0
  | (_, v) :: rest => vsize v + dsize rest

end

/-- A value that is a string or falsy (so Python string methods applied
to `(x or y or "")` chains over it cannot raise). -/
def strOrFalsy : Value → Bool
  | .vstr _ => true
  | v => !truthy v

/-- A value that is a sequence or falsy (so iteration over
`(x or y or [])` chains over it cannot raise). -/
def listOrFalsy : Value → Bool
  | .vlist _ => true
  | v => !truthy v

/-- A dictionary-shaped value. -/
def Value.isDict : Value → Bool
  | .vdict _ => true
  | _ => false

/-- Shape conditions on one dictionary making the walker's field accesses
on it exception-free: truthy name/type-like fields are strings and truthy
children-like fields are sequences. -/
def keysOk (kvs : List (String × Value)) : Bool :=
  strOrFalsy (pyOr (getOr kvs "name") (getOr kvs "Name")) &&
  strOrFalsy (pyOr (getOr kvs "stripType") (getOr kvs "type")) &&
  listOrFalsy (getOr kvs "children") &&
  listOrFalsy (getOr kvs "_children") &&
  listOrFalsy (getOr kvs "patches")

mutual

/-- Well-formed document values: every dictionary satisfies `keysOk` and
every sequence element is a well-formed dictionary. -/
def WF : Value → Bool
  | .vdict kvs => keysOk kvs && wfVals kvs
  | .vlist xs => wfElems xs
  | _ => true

/-- All values of a dictionary are well-formed. -/
def wfVals : List (String × Value) → Bool
  | [] => true
  | (_, v) :: rest => WF v && wfVals rest

/-- All elements of a sequence are well-formed dictionaries. -/
def wfElems : List Value → Bool
  | [] => true
  | v :: vs => v.isDict && WF v && wfElems vs

end

/-- The session fields carrying the wall-clock reading, removed:
`createdAt` at the top level and `extractedAt` inside `source`. -/
def scrubSource : Value → Value
  | .vdict kvs => .vdict (kvs.filter (fun kv => !(kv.1 = "extractedAt")))
  | v => v

/-- A session document with its timestamp fields removed. -/
def scrubTimestamps : Value → Value
  | .vdict kvs => .vdict (kvs.filterMap (fun kv =>
      if kv.1 = "createdAt" then none
      else if kv.1 = "source" then some (kv.1, scrubSource kv.2)
      else some kv))
  | v => v

/-- The embedded `layer` payload fails to decode in one of the three ways
the failure policy names: the archive decode raises, fetching or
iterating the flat object array raises, or no object in the array
carries both note-bound attributes. -/
def embeddedDecodeFails (decode : List Nat → Except String Value) (bs : List Nat) : Prop :=
  match decode bs with
  | .error _ => True
  | .ok layer =>
      match scanTarget layer with
      | .error _ => True
      | .ok none => True
      | .ok (some _) => False

/-! ## Theorems -/

/-- C2: in both mapper modes every scene built from a patch carries
exactly one layer per `instrument`-kind channel strip, in the strips'
original order and with no layer for any other kind, and each layer's
name, transpose and key range read back equal to the strip's fields. -/
theorem scene_layer_roundtrip :
    (∀ (p : Patch) (b : Bool),
        sceneLayers (scene_from_patch p b) =
          some ((p.channel_strips.filter
            (fun cs => cs.kind = "instrument")).map layer_from_strip))
    ∧ (∀ (s : Set) (p : Patch),
        songScenes (flatSong s p) = some [scene_from_patch p true])
    ∧ (∀ s : Set,
        songScenes (groupSong s) =
          some (s.patches.map (fun p => scene_from_patch p false)))
    ∧ (∀ cs : ChannelStrip,
        dictField (layer_from_strip cs) "name" = some (.vstr cs.name)
        ∧ dictField (layer_from_strip cs) "transpose" = some (.vint cs.transpose)
        ∧ dictField (layer_from_strip cs) "keyRange" =
            some (match cs.key_range with | some kr => kr.to_dict | none => .vnull))
    ∧ (∀ kr : KeyRange,
        dictField kr.to_dict "low" = some (.vint kr.low)
        ∧ dictField kr.to_dict "high" = some (.vint kr.high)) := by
  refine ⟨fun p b => rfl, fun s p => rfl, fun s => rfl, fun cs => ⟨rfl, rfl, rfl⟩,
    fun kr => ⟨rfl, rfl⟩⟩

/-- C6 (corrected): the mapper is deterministic in the model arguments up
to the two timestamp fields; removing `createdAt` and `source.extractedAt`
makes any two invocations with identical arguments agree exactly. -/
theorem session_deterministic_modulo_timestamps :
    ∀ (c : Concert) (b : Bool) (path t1 t2 : String),
      scrubTimestamps (build_camelot_session c b path t1)
        = scrubTimestamps (build_camelot_session c b path t2) := by
  intro c b path t1 t2
  rfl

/-- C6 counterexample: two invocations of the mapper with identical
concert, mode and path arguments but different wall-clock readings
produce different session documents. -/
theorem session_differs_across_clock_readings :
    build_camelot_session ⟨"C", [], []⟩ false "" "2020-01-01T00:00:00"
      ≠ build_camelot_session ⟨"C", [], []⟩ false "" "2020-01-01T00:00:01" := by
  intro h
  have h2 := congrArg (fun v => dictField v "createdAt") h
  simp [build_camelot_session, dictField, dget] at h2

/-- C3 counterexample: a node whose class string contains "patch" but
whose name begins with "Set " classifies as "set", not "patch" — the
name heuristic fires inside the first check, before the "patch" class
check. -/
theorem classify_class_patch_name_set :
    classify_node (.vdict [("class", .vstr "patch"), ("name", .vstr "Set A")])
        = .ok "set"
    ∧ ("set" : String) ≠ "patch" := by
  exact ⟨rfl, by decide⟩

/-- C3 (corrected): the checks run in the source's order with the class
"set" test and the name heuristic sharing the first branch; a class
string containing "patch" yields "patch" only when the class string does
not contain "set" and the lowered name does not begin with "set ". -/
theorem classify_patch_when_no_set_signal :
    ∀ (kvs : List (String × Value)) (s : String),
      pyOr (getOr kvs "name") (pyOr (getOr kvs "Name") (.vstr "")) = .vstr s →
      strContains "patch" (lowerStr (node_class kvs)) = true →
      strContains "set" (lowerStr (node_class kvs)) = false →
      "set ".toList.isPrefixOf (lowerStr s).toList = false →
      classify_node (.vdict kvs) = .ok "patch" := by
  intro kvs s hname hpatch hset hsw
  simp only [classify_node, hname, pyLowerE, Except.bind, bind, pure, Except.pure,
    hset, hpatch, pyStartsWithE, hsw]
  simp [hset, hsw, hpatch, lowerStr]

/-- Witness for C3: a concrete node with class "MyPatch" and name "Lead"
classifies as "patch". -/
theorem classify_patch_when_no_set_signal_witness :
    classify_node (.vdict [("class", .vstr "MyPatch"), ("name", .vstr "Lead")])
        = .ok "patch" :=
  classify_patch_when_no_set_signal
    [("class", .vstr "MyPatch"), ("name", .vstr "Lead")] "Lead"
    rfl (by decide) (by decide) (by decide)

/-- C4: in flattened mode the session has one song per patch across all
sets, each song has exactly one scene, each song's metadata records the
originating set name under `_fromSet`, and a present patch bpm appears in
the song metadata. -/
theorem flattened_mode_structure :
    (∀ (c : Concert) (path now : String),
        sessionSongs (build_camelot_session c true path now) =
          some ((c.sets.map (fun s => s.patches.map (flatSong s))).flatten)
        ∧ ((c.sets.map (fun s => s.patches.map (flatSong s))).flatten).length
            = (c.sets.map (fun s => s.patches.length)).sum)
    ∧ (∀ (s : Set) (p : Patch),
        songScenes (flatSong s p) = some [scene_from_patch p true]
        ∧ metaField (flatSong s p) "_fromSet" = some (.vstr s.name)
        ∧ (∀ v, bpmAttr p = some v → metaField (flatSong s p) "bpm" = some v)) := by
  constructor
  · intro c path now
    refine ⟨rfl, ?_⟩
    simp [List.length_flatten, List.map_map, Function.comp_def]
  · intro s p
    refine ⟨?_, ?_, ?_⟩
    · cases h : bpmAttr p <;> simp [songScenes, listField, dictField, flatSong, h, dget]
    · cases h : bpmAttr p <;>
        simp [metaField, dictField, flatSong, h, dget, dset]
    · intro v hv
      simp [metaField, dictField, flatSong, hv, dget, dset]

/-- Witness for C4: a concrete patch carrying bpm 120 surfaces that bpm
in its flattened song's metadata. -/
theorem flattened_mode_structure_witness :
    metaField (flatSong ⟨"S", [], []⟩ ⟨"P", [], [("bpm", .vreal 120)]⟩) "bpm"
      = some (.vreal 120) :=
  (flattened_mode_structure.2 ⟨"S", [], []⟩ ⟨"P", [], [("bpm", .vreal 120)]⟩).2.2
    (.vreal 120) rfl

/-- Clamped MIDI bounds lie in 0..127. -/
theorem clamp127_bounds (n : Int) : 0 ≤ clamp127 n ∧ clamp127 n ≤ 127 := by
  unfold clamp127
  omega

/-- Every key range produced by the alias-pair scan is clamped. -/
theorem findSome_key_pairs_bounds :
    ∀ (pairs : List (String × String)) (kvs : List (String × Value)) (kr : KeyRange),
      pairs.findSome? (fun p =>
        match coerce_int (getOr kvs p.1), coerce_int (getOr kvs p.2) with
        | some lo, some hi => some (KeyRange.mk (clamp127 lo) (clamp127 hi))
        | _, _ => none) = some kr →
      0 ≤ kr.low ∧ kr.low ≤ 127 ∧ 0 ≤ kr.high ∧ kr.high ≤ 127 := by
  intro pairs
  induction pairs with
  | nil => intro kvs kr h; simp [List.findSome?] at h
  | cons a rest ih =>
      intro kvs kr h
      rw [List.findSome?_cons] at h
      cases hlo : coerce_int (getOr kvs a.1) with
      | none => simp [hlo] at h; exact ih kvs kr h
      | some lo =>
          cases hhi : coerce_int (getOr kvs a.2) with
          | none => simp [hlo, hhi] at h; exact ih kvs kr h
          | some hi =>
              simp [hlo, hhi] at h
              cases h
              exact ⟨(clamp127_bounds lo).1, (clamp127_bounds lo).2,
                     (clamp127_bounds hi).1, (clamp127_bounds hi).2⟩

/-- Every key range produced by the embedded-archive scan is clamped. -/
theorem scanObjects_bounds :
    ∀ (layer : Value) (r : Option KeyRange × Int) (kr : KeyRange),
      scanObjects layer = .ok r → r.1 = some kr →
      0 ≤ kr.low ∧ kr.low ≤ 127 ∧ 0 ≤ kr.high ∧ kr.high ≤ 127 := by
  intro layer r kr hok h1
  cases ht : scanTarget layer with
  | error e => simp [scanObjects, ht, Except.bind, bind] at hok
  | ok target =>
      cases target with
      | none =>
          simp [scanObjects, ht, Except.bind, bind, pure, Except.pure] at hok
          subst hok
          simp at h1
      | some od =>
          simp [scanObjects, ht, Except.bind, bind, pure, Except.pure] at hok
          subst hok
          cases hlo : coerce_int (getOr od "lowNote") with
          | none => simp [hlo] at h1
          | some lo =>
              cases hhi : coerce_int (getOr od "highNote") with
              | none => simp [hlo, hhi] at h1
              | some hi =>
                  simp [hlo, hhi] at h1
                  cases h1
                  exact ⟨(clamp127_bounds lo).1, (clamp127_bounds lo).2,
                         (clamp127_bounds hi).1, (clamp127_bounds hi).2⟩

/-- Every key range kept by the legacy try-block is clamped. -/
theorem legacyKeyTranspose_bounds :
    ∀ (decode : List Nat → Except String Value) (kvs : List (String × Value))
      (kr : KeyRange),
      (legacyKeyTranspose decode kvs).1 = some kr →
      0 ≤ kr.low ∧ kr.low ≤ 127 ∧ 0 ≤ kr.high ∧ kr.high ≤ 127 := by
  intro decode kvs kr h
  unfold legacyKeyTranspose at h
  split at h
  case h_2 => simp at h
  case h_1 bs heq =>
    split at h
    case h_2 => simp at h
    case h_1 r hr =>
      cases hd : decode bs with
      | error e => rw [hd] at hr; simp [Except.bind, bind] at hr
      | ok layer =>
          rw [hd] at hr
          simp only [Except.bind, bind] at hr
          exact scanObjects_bounds layer r kr hr h

/-- C5: every key range the engine constructs — in the heuristic walker
or in the legacy adapter's embedded-archive decode — has both bounds
clamped into 0..127 independently, and out-of-range or inverted raw
inputs are accepted rather than rejected (a raw low of 200 and high of
-3 yields the range 127..0 with no error). -/
theorem key_range_clamped :
    (∀ (kvs : List (String × Value)) (kr : KeyRange),
        infer_key_range kvs = some kr →
        0 ≤ kr.low ∧ kr.low ≤ 127 ∧ 0 ≤ kr.high ∧ kr.high ≤ 127)
    ∧ (∀ (decode : List Nat → Except String Value) (ch : Value)
         (sp : Option String) (cs : ChannelStrip) (kr : KeyRange),
        parse_legacy_channel decode ch sp = some cs → cs.key_range = some kr →
        0 ≤ kr.low ∧ kr.low ≤ 127 ∧ 0 ≤ kr.high ∧ kr.high ≤ 127)
    ∧ infer_key_range [("keyRangeLow", .vint 200), ("keyRangeHigh", .vint (-3))]
        = some ⟨127, 0⟩ := by
  refine ⟨?_, ?_, rfl⟩
  · intro kvs kr h
    exact findSome_key_pairs_bounds _ kvs kr h
  · intro decode ch sp cs kr hp hkr
    cases ch with
    | vdict kvs =>
        simp only [parse_legacy_channel, Option.some.injEq] at hp
        subst hp
        exact legacyKeyTranspose_bounds decode kvs kr hkr
    | vnull => simp [parse_legacy_channel] at hp
    | vbool b => simp [parse_legacy_channel] at hp
    | vint n => simp [parse_legacy_channel] at hp
    | vreal q => simp [parse_legacy_channel] at hp
    | vstr s => simp [parse_legacy_channel] at hp
    | vbytes bs => simp [parse_legacy_channel] at hp
    | vlist xs => simp [parse_legacy_channel] at hp

/-- Witness for C5: a concrete strip with in-range key aliases gets its
clamped bounds, 0 ≤ 5 ≤ 127 and 0 ≤ 127 ≤ 127. -/
theorem key_range_clamped_witness :
    0 ≤ (KeyRange.mk 5 127).low ∧ (KeyRange.mk 5 127).low ≤ 127
    ∧ 0 ≤ (KeyRange.mk 5 127).high ∧ (KeyRange.mk 5 127).high ≤ 127 :=
  key_range_clamped.1 [("keyLow", .vint 5), ("keyHigh", .vint 300)] ⟨5, 127⟩ rfl

/-- A failing embedded decode leaves the try-block defaults. -/
theorem legacyKeyTranspose_of_fails :
    ∀ (decode : List Nat → Except String Value) (kvs : List (String × Value))
      (bs : List Nat),
      dget kvs "layer" = some (.vbytes bs) →
      embeddedDecodeFails decode bs →
      legacyKeyTranspose decode kvs = (none, 0) := by
  intro decode kvs bs hl hf
  unfold embeddedDecodeFails at hf
  unfold legacyKeyTranspose
  rw [hl]
  cases hd : decode bs with
  | error e => simp [Except.bind, bind, hd]
  | ok layer =>
      rw [hd] at hf
      cases ht : scanTarget layer with
      | error e =>
          simp [Except.bind, bind, hd, scanObjects, ht]
      | ok target =>
          cases target with
          | none =>
              simp [Except.bind, bind, hd, scanObjects, ht, pure, Except.pure]
          | some od =>
              exfalso
              have hf2 : (match scanTarget layer with
                | .error _ => True | .ok none => True | .ok (some _) => False) := hf
              rw [ht] at hf2
              exact hf2

/-- C8: when the embedded `layer` payload fails to decode — the archive
decode raises, the object-array fetch or iteration raises, or no object
carries both note bounds — `parse_legacy_channel` still returns a strip,
with no key range and zero transpose (and, being total, never raises). -/
theorem legacy_decode_failure_defaults :
    ∀ (decode : List Nat → Except String Value) (kvs : List (String × Value))
      (bs : List Nat) (sp : Option String),
      dget kvs "layer" = some (.vbytes bs) →
      embeddedDecodeFails decode bs →
      ∃ cs, parse_legacy_channel decode (.vdict kvs) sp = some cs
        ∧ cs.key_range = none ∧ cs.transpose = 0 := by
  intro decode kvs bs sp hl hf
  have hkt := legacyKeyTranspose_of_fails decode kvs bs hl hf
  refine ⟨_, rfl, ?_, ?_⟩ <;> simp [hkt]

/-- Witness for C8: a decoder that always fails on an empty payload gives
a strip with no key range and zero transpose. -/
theorem legacy_decode_failure_defaults_witness :
    ∃ cs, parse_legacy_channel (fun _ => .error "bad payload")
            (.vdict [("layer", .vbytes [])]) none = some cs
      ∧ cs.key_range = none ∧ cs.transpose = 0 :=
  legacy_decode_failure_defaults (fun _ => .error "bad payload")
    [("layer", .vbytes [])] [] none rfl trivial

/-- C10: every channel strip the legacy adapter produces has kind
"instrument" and no MIDI channel, and therefore always surfaces as a
layer of any scene whose patch contains it. -/
theorem legacy_strip_instrument :
    ∀ (decode : List Nat → Except String Value) (ch : Value)
      (sp : Option String) (cs : ChannelStrip),
      parse_legacy_channel decode ch sp = some cs →
      cs.kind = "instrument" ∧ cs.midi_channel = none
      ∧ ∀ (p : Patch) (b : Bool), cs ∈ p.channel_strips →
          layer_from_strip cs ∈ (sceneLayers (scene_from_patch p b)).getD [] := by
  intro decode ch sp cs hp
  cases ch with
  | vdict kvs =>
      simp only [parse_legacy_channel, Option.some.injEq] at hp
      subst hp
      refine ⟨rfl, rfl, ?_⟩
      intro p b hmem
      have hl : (sceneLayers (scene_from_patch p b)).getD []
          = (p.channel_strips.filter
              (fun cs => cs.kind = "instrument")).map layer_from_strip := rfl
      rw [hl]
      exact List.mem_map.mpr ⟨_, List.mem_filter.mpr ⟨hmem, by simp⟩, rfl⟩
  | vnull => simp [parse_legacy_channel] at hp
  | vbool b => simp [parse_legacy_channel] at hp
  | vint n => simp [parse_legacy_channel] at hp
  | vreal q => simp [parse_legacy_channel] at hp
  | vstr s => simp [parse_legacy_channel] at hp
  | vbytes bs => simp [parse_legacy_channel] at hp
  | vlist xs => simp [parse_legacy_channel] at hp

/-- Membership transfer out of a reversed accumulator rendering. -/
theorem mem_of_mem_reverse_append {a c : Char} {as : List Char}
    (h : c ∈ as.reverse ++ [a]) : c ∈ a :: as := by
  rcases List.mem_append.mp h with h | h
  · exact List.mem_cons_of_mem a (List.mem_reverse.mp h)
  · simp at h
    simp [h]

/-- Words produced by `splitAux` are non-empty and whitespace-free. -/
theorem splitAux_words :
    ∀ (l acc : List Char), (∀ c ∈ acc, isPySpace c = false) →
      ∀ w ∈ splitAux l acc, w ≠ [] ∧ ∀ c ∈ w, isPySpace c = false := by
  intro l
  induction l with
  | nil =>
      intro acc hacc w hw
      cases acc with
      | nil => simp [splitAux] at hw
      | cons a as =>
          simp [splitAux] at hw
          subst hw
          refine ⟨by simp, fun c hc => hacc c (mem_of_mem_reverse_append hc)⟩
  | cons c cs ih =>
      intro acc hacc w hw
      cases hcv : isPySpace c with
      | true =>
          cases acc with
          | nil =>
              simp [splitAux, hcv] at hw
              exact ih [] (by simp) w hw
          | cons a as =>
              simp [splitAux, hcv] at hw
              rcases hw with hw | hw
              · subst hw
                refine ⟨by simp, fun d hd => hacc d (mem_of_mem_reverse_append hd)⟩
              · exact ih [] (by simp) w hw
      | false =>
          simp [splitAux, hcv] at hw
          refine ih (c :: acc) ?_ w hw
          intro d hd
          rcases List.mem_cons.mp hd with h | h
          · subst h; exact hcv
          · exact hacc d h

/-- `splitAux` consumes a leading whitespace-free word into the
accumulator. -/
theorem splitAux_append_word :
    ∀ (w : List Char), (∀ c ∈ w, isPySpace c = false) →
      ∀ (t acc : List Char), splitAux (w ++ t) acc = splitAux t (w.reverse ++ acc) := by
  intro w
  induction w with
  | nil => intro _ t acc; simp
  | cons c w' ih =>
      intro hw t acc
      have hc : isPySpace c = false := hw c (by simp)
      show splitAux (c :: (w' ++ t)) acc = _
      rw [splitAux, hc]
      simp only [Bool.false_eq_true, if_false]
      rw [ih (fun d hd => hw d (by simp [hd])) t (c :: acc)]
      simp

/-- Splitting the space-joined rendering of non-empty whitespace-free
words recovers exactly those words. -/
theorem pySplit_joinWords :
    ∀ ws : List (List Char),
      (∀ w ∈ ws, w ≠ [] ∧ ∀ c ∈ w, isPySpace c = false) →
      pySplit (joinWords ws) = ws := by
  intro ws
  induction ws with
  | nil => intro _; rfl
  | cons w ws ih =>
      intro hws
      obtain ⟨hwne, hwc⟩ := hws w (by simp)
      cases ws with
      | nil =>
          show splitAux (joinWords [w]) [] = [w]
          have hj : joinWords [w] = w ++ [] := by simp [joinWords]
          rw [hj, splitAux_append_word w hwc [] []]
          simp only [List.append_nil]
          cases hwr : w.reverse with
          | nil => exact absurd (List.reverse_eq_nil_iff.mp hwr) hwne
          | cons a as =>
              have hw2 : (a :: as).reverse = w := by
                rw [← hwr, List.reverse_reverse]
              rw [splitAux]
              simp only [List.isEmpty_cons, Bool.false_eq_true, if_false]
              rw [hw2]
      | cons w2 rest =>
          show splitAux (joinWords (w :: w2 :: rest)) [] = w :: w2 :: rest
          have hj : joinWords (w :: w2 :: rest) = w ++ ' ' :: joinWords (w2 :: rest) := rfl
          rw [hj, splitAux_append_word w hwc (' ' :: joinWords (w2 :: rest)) []]
          simp only [List.append_nil]
          cases hwr : w.reverse with
          | nil => exact absurd (List.reverse_eq_nil_iff.mp hwr) hwne
          | cons a as =>
              have hw2 : (a :: as).reverse = w := by
                rw [← hwr, List.reverse_reverse]
              rw [splitAux]
              have hsp : isPySpace ' ' = true := rfl
              rw [hsp]
              simp only [if_true, List.isEmpty_cons, Bool.false_eq_true, if_false]
              rw [hw2]
              rw [show splitAux (joinWords (w2 :: rest)) [] = pySplit (joinWords (w2 :: rest)) from rfl]
              rw [ih (fun u hu => hws u (by simp [hu]))]

/-- `dropWhile` is the identity when the head fails the predicate. -/
theorem dropWhile_eq_self_of_head :
    ∀ (l : List Char), (∀ c, l.head? = some c → isPySpace c = false) →
      l.dropWhile isPySpace = l := by
  intro l h
  cases l with
  | nil => rfl
  | cons c cs => simp [List.dropWhile, h c rfl]

/-- The space-joined rendering of a non-empty word list is non-empty. -/
theorem joinWords_ne_nil :
    ∀ (w : List Char) (ws : List (List Char)), w ≠ [] → joinWords (w :: ws) ≠ [] := by
  intro w ws hw
  cases ws with
  | nil => exact hw
  | cons w2 rest => simp [joinWords]

/-- The head of a space-joined word rendering is not whitespace. -/
theorem joinWords_head_nonspace :
    ∀ (ws : List (List Char)),
      (∀ w ∈ ws, w ≠ [] ∧ ∀ c ∈ w, isPySpace c = false) →
      ∀ c, (joinWords ws).head? = some c → isPySpace c = false := by
  intro ws hws c hc
  cases ws with
  | nil => simp [joinWords] at hc
  | cons w rest =>
      obtain ⟨hne, hcs⟩ := hws w (by simp)
      cases w with
      | nil => exact absurd rfl hne
      | cons a as =>
          have ha : (joinWords ((a :: as) :: rest)).head? = some a := by
            cases rest <;> simp [joinWords]
          rw [ha] at hc
          obtain rfl := Option.some.inj hc
          exact hcs _ (by simp)

/-- The last character of a space-joined word rendering is not whitespace. -/
theorem joinWords_getLast_nonspace :
    ∀ (ws : List (List Char)),
      (∀ w ∈ ws, w ≠ [] ∧ ∀ c ∈ w, isPySpace c = false) →
      ∀ c, (joinWords ws).getLast? = some c → isPySpace c = false := by
  intro ws
  induction ws with
  | nil => intro _ c hc; simp [joinWords] at hc
  | cons w rest ih =>
      intro hws c hc
      cases rest with
      | nil =>
          obtain ⟨hne, hcs⟩ := hws w (by simp)
          exact hcs c (List.mem_of_mem_getLast? hc)
      | cons w2 rest2 =>
          have hj : joinWords (w :: w2 :: rest2) = w ++ ' ' :: joinWords (w2 :: rest2) := rfl
          rw [hj] at hc
          obtain ⟨hne2, _⟩ := hws w2 (by simp)
          have hjoin : joinWords (w2 :: rest2) ≠ [] := joinWords_ne_nil w2 rest2 hne2
          rw [List.getLast?_append_of_ne_nil w (by simp)] at hc
          rw [show (' ' :: joinWords (w2 :: rest2)) = [' '] ++ joinWords (w2 :: rest2) from rfl,
              List.getLast?_append_of_ne_nil [' '] hjoin] at hc
          exact ih (fun u hu => hws u (by simp [hu])) c hc

/-- `strip` is the identity on a list whose ends are not whitespace. -/
theorem pyStrip_eq_self :
    ∀ (l : List Char),
      (∀ c, l.head? = some c → isPySpace c = false) →
      (∀ c, l.getLast? = some c → isPySpace c = false) →
      pyStrip l = l := by
  intro l hh hl
  unfold pyStrip
  rw [dropWhile_eq_self_of_head l hh]
  rw [dropWhile_eq_self_of_head l.reverse (by
    intro c hc
    rw [List.head?_reverse] at hc
    exact hl c hc)]
  exact List.reverse_reverse l

/-- `strip` is the identity on a space-joined word rendering. -/
theorem pyStrip_joinWords :
    ∀ ws : List (List Char),
      (∀ w ∈ ws, w ≠ [] ∧ ∀ c ∈ w, isPySpace c = false) →
      pyStrip (joinWords ws) = joinWords ws := by
  intro ws hws
  exact pyStrip_eq_self _ (joinWords_head_nonspace ws hws)
    (joinWords_getLast_nonspace ws hws)

/-- Characters of split words come from the input or the accumulator. -/
theorem mem_splitAux :
    ∀ (l acc : List Char) (w : List Char) (c : Char),
      w ∈ splitAux l acc → c ∈ w → c ∈ l ∨ c ∈ acc := by
  intro l
  induction l with
  | nil =>
      intro acc w c hw hc
      cases acc with
      | nil => simp [splitAux] at hw
      | cons a as =>
          simp [splitAux] at hw
          subst hw
          exact Or.inr (mem_of_mem_reverse_append hc)
  | cons d ds ih =>
      intro acc w c hw hc
      cases hdv : isPySpace d with
      | true =>
          cases acc with
          | nil =>
              simp [splitAux, hdv] at hw
              rcases ih [] w c hw hc with h | h
              · exact Or.inl (by simp [h])
              · simp at h
          | cons a as =>
              simp [splitAux, hdv] at hw
              rcases hw with hw | hw
              · subst hw; exact Or.inr (mem_of_mem_reverse_append hc)
              · rcases ih [] w c hw hc with h | h
                · exact Or.inl (by simp [h])
                · simp at h
      | false =>
          simp [splitAux, hdv] at hw
          rcases ih (d :: acc) w c hw hc with h | h
          · exact Or.inl (by simp [h])
          · rcases List.mem_cons.mp h with h2 | h2
            · exact Or.inl (by simp [h2])
            · exact Or.inr h2

/-- Characters of a space-joined rendering come from the words or are
the joining space. -/
theorem mem_joinWords :
    ∀ (ws : List (List Char)) (c : Char),
      c ∈ joinWords ws → (∃ w ∈ ws, c ∈ w) ∨ c = ' ' := by
  intro ws
  induction ws with
  | nil => intro c hc; simp [joinWords] at hc
  | cons w rest ih =>
      intro c hc
      cases rest with
      | nil => exact Or.inl ⟨w, by simp, hc⟩
      | cons w2 rest2 =>
          have hj : joinWords (w :: w2 :: rest2) = w ++ ' ' :: joinWords (w2 :: rest2) := rfl
          rw [hj] at hc
          rcases List.mem_append.mp hc with h | h
          · exact Or.inl ⟨w, by simp, h⟩
          · rcases List.mem_cons.mp h with h2 | h2
            · exact Or.inr h2
            · rcases ih c h2 with ⟨u, hu, hcu⟩ | h3
              · exact Or.inl ⟨u, by simp [hu], hcu⟩
              · exact Or.inr h3

/-- Replacing a character removes it, provided the replacement avoids it. -/
theorem replaceChar_not_mem :
    ∀ (c : Char) (rep l : List Char), c ∉ rep → c ∉ replaceChar c rep l := by
  intro c rep l hrep
  induction l with
  | nil => simp [replaceChar]
  | cons a rest ih =>
      by_cases ha : a = c
      · rw [replaceChar, if_pos ha]
        intro h
        rcases List.mem_append.mp h with h2 | h2
        · exact hrep h2
        · exact ih h2
      · rw [replaceChar, if_neg ha]
        intro h
        rcases List.mem_cons.mp h with h2 | h2
        · exact ha h2.symm
        · exact ih h2

/-- Characters after replacement come from the input or the replacement. -/
theorem mem_replaceChar :
    ∀ (c : Char) (rep l : List Char) (x : Char),
      x ∈ replaceChar c rep l → x ∈ l ∨ x ∈ rep := by
  intro c rep l
  induction l with
  | nil => intro x hx; simp [replaceChar] at hx
  | cons a rest ih =>
      intro x hx
      by_cases ha : a = c
      · rw [replaceChar, if_pos ha] at hx
        rcases List.mem_append.mp hx with h | h
        · exact Or.inr h
        · rcases ih x h with h2 | h2
          · exact Or.inl (by simp [h2])
          · exact Or.inr h2
      · rw [replaceChar, if_neg ha] at hx
        rcases List.mem_cons.mp hx with h | h
        · exact Or.inl (by simp [h])
        · rcases ih x h with h2 | h2
          · exact Or.inl (by simp [h2])
          · exact Or.inr h2

/-- Replacement of an absent character is the identity. -/
theorem replaceChar_eq_self :
    ∀ (c : Char) (rep l : List Char), c ∉ l → replaceChar c rep l = l := by
  intro c rep l
  induction l with
  | nil => intro _; rfl
  | cons a rest ih =>
      intro h
      have ha : ¬ a = c := fun he => h (by simp [he])
      rw [replaceChar, if_neg ha]
      rw [ih (fun hm => h (by simp [hm]))]

/-- Characters after the `" —  "` collapse come from the input. -/
theorem mem_replaceEmSpSp :
    ∀ (l : List Char) (x : Char), x ∈ replaceEmSpSp l → x ∈ l := by
  intro l
  induction l using replaceEmSpSp.induct with
  | case1 rest ih =>
      intro x h
      rw [replaceEmSpSp] at h
      simp only [List.mem_cons] at h ⊢
      rcases h with h | h | h | h
      · exact Or.inl h
      · exact Or.inr (Or.inl h)
      · exact Or.inl h
      · exact Or.inr (Or.inr (Or.inr (Or.inr (ih x h))))
  | case2 a rest hne ih =>
      intro x h
      rw [replaceEmSpSp.eq_2 a rest hne] at h
      simp only [List.mem_cons] at h ⊢
      rcases h with h | h
      · exact Or.inl h
      · exact Or.inr (ih x h)
  | case3 =>
      intro x h
      rw [replaceEmSpSp] at h
      exact absurd h (List.not_mem_nil x)

/-- Characters after the `"  — "` collapse come from the input. -/
theorem mem_replaceSpSpEm :
    ∀ (l : List Char) (x : Char), x ∈ replaceSpSpEm l → x ∈ l := by
  intro l
  induction l using replaceSpSpEm.induct with
  | case1 rest ih =>
      intro x h
      rw [replaceSpSpEm] at h
      simp only [List.mem_cons] at h ⊢
      rcases h with h | h | h | h
      · exact Or.inl h
      · exact Or.inr (Or.inr (Or.inl h))
      · exact Or.inl h
      · exact Or.inr (Or.inr (Or.inr (Or.inr (ih x h))))
  | case2 a rest hne ih =>
      intro x h
      rw [replaceSpSpEm.eq_2 a rest hne] at h
      simp only [List.mem_cons] at h ⊢
      rcases h with h | h
      · exact Or.inl h
      · exact Or.inr (ih x h)
  | case3 =>
      intro x h
      rw [replaceSpSpEm] at h
      exact absurd h (List.not_mem_nil x)

/-- The `" —  "` collapse does not change how a string splits. -/
theorem splitAux_replaceEmSpSp :
    ∀ (l : List Char) (acc : List Char),
      splitAux (replaceEmSpSp l) acc = splitAux l acc := by
  intro l
  induction l using replaceEmSpSp.induct with
  | case1 rest ih =>
      intro acc
      rw [replaceEmSpSp]
      have hsp : isPySpace ' ' = true := rfl
      have hem : isPySpace '—' = false := rfl
      cases acc with
      | nil => simp [splitAux, hsp, hem, ih]
      | cons a as => simp [splitAux, hsp, hem, ih]
  | case2 a rest hne ih =>
      intro acc
      rw [replaceEmSpSp.eq_2 a rest hne]
      cases hav : isPySpace a with
      | true => cases acc <;> simp [splitAux, hav, ih]
      | false => simp [splitAux, hav, ih]
  | case3 => intro acc; rw [replaceEmSpSp]

/-- The `"  — "` collapse does not change how a string splits. -/
theorem splitAux_replaceSpSpEm :
    ∀ (l : List Char) (acc : List Char),
      splitAux (replaceSpSpEm l) acc = splitAux l acc := by
  intro l
  induction l using replaceSpSpEm.induct with
  | case1 rest ih =>
      intro acc
      rw [replaceSpSpEm]
      have hsp : isPySpace ' ' = true := rfl
      have hem : isPySpace '—' = false := rfl
      cases acc with
      | nil => simp [splitAux, hsp, hem, ih]
      | cons a as => simp [splitAux, hsp, hem, ih]
  | case2 a rest hne ih =>
      intro acc
      rw [replaceSpSpEm.eq_2 a rest hne]
      cases hav : isPySpace a with
      | true => cases acc <;> simp [splitAux, hav, ih]
      | false => simp [splitAux, hav, ih]
  | case3 => intro acc; rw [replaceSpSpEm]

/-- The words of any normalized name are non-empty and whitespace-free. -/
theorem normalizeName_words (s : String) :
    ∀ w ∈ pySplit (replaceSpSpEm (replaceEmSpSp
        (replaceChar '/' repDash (replaceChar '\\' repDash s.toList)))),
      w ≠ [] ∧ ∀ c ∈ w, isPySpace c = false :=
  splitAux_words _ [] (by simp)

/-- A normalized name is its own space-joined word rendering. -/
theorem normalizeName_toList (s : String) :
    (normalizeName s).toList = joinWords (pySplit (replaceSpSpEm (replaceEmSpSp
      (replaceChar '/' repDash (replaceChar '\\' repDash s.toList))))) :=
  pyStrip_joinWords _ (normalizeName_words s)

/-- Neither path separator survives into a normalized name. -/
theorem normalizeName_no_separators (s : String) :
    '\\' ∉ (normalizeName s).toList ∧ '/' ∉ (normalizeName s).toList := by
  have base : ∀ c : Char, c ∈ (normalizeName s).toList →
      c = ' ' ∨ c ∈ replaceChar '/' repDash (replaceChar '\\' repDash s.toList) := by
    intro c hmem
    rw [normalizeName_toList] at hmem
    rcases mem_joinWords _ _ hmem with ⟨w, hw, hcw⟩ | hsp
    · have hl3 := mem_splitAux _ [] w _ hw hcw
      simp only [List.not_mem_nil, or_false] at hl3
      exact Or.inr (mem_replaceEmSpSp _ _ (mem_replaceSpSpEm _ _ hl3))
    · exact Or.inl hsp
  constructor
  · intro hmem
    rcases base '\\' hmem with h | h
    · revert h; decide
    · rcases mem_replaceChar '/' repDash _ _ h with h3 | h3
      · exact replaceChar_not_mem '\\' repDash s.toList (by decide) h3
      · revert h3; decide
  · intro hmem
    rcases base '/' hmem with h | h
    · revert h; decide
    · exact replaceChar_not_mem '/' repDash _ (by decide) h

/-- `normalize_name` is idempotent on strings. -/
theorem normalizeName_idem (s : String) :
    normalizeName (normalizeName s) = normalizeName s := by
  obtain ⟨hnb, hns⟩ := normalizeName_no_separators s
  show String.mk (pyStrip (joinWords (pySplit (replaceSpSpEm (replaceEmSpSp
      (replaceChar '/' repDash
        (replaceChar '\\' repDash (normalizeName s).toList))))))) = normalizeName s
  rw [replaceChar_eq_self '\\' repDash _ hnb, replaceChar_eq_self '/' repDash _ hns]
  rw [show pySplit (replaceSpSpEm (replaceEmSpSp (normalizeName s).toList))
        = pySplit (normalizeName s).toList from by
    unfold pySplit
    rw [splitAux_replaceSpSpEm, splitAux_replaceEmSpSp]]
  rw [normalizeName_toList]
  rw [pySplit_joinWords _ (normalizeName_words s)]
  rw [pyStrip_joinWords _ (normalizeName_words s)]
  rw [← normalizeName_toList]
  rfl

/-- C9: `normalize_name` is idempotent — normalizing an already
normalized name returns it unchanged. -/
theorem normalize_name_idempotent :
    ∀ s : String, normalizeName (normalizeName s) = normalizeName s :=
  fun s => normalizeName_idem s

/-- Characters other than the pattern survive replacement. -/
theorem mem_replaceChar_of_ne :
    ∀ (c : Char) (rep l : List Char) (x : Char),
      x ∈ l → x ≠ c → x ∈ replaceChar c rep l := by
  intro c rep l
  induction l with
  | nil => intro x hx _; simp at hx
  | cons a rest ih =>
      intro x hx hne
      by_cases ha : a = c
      · rw [replaceChar, if_pos ha]
        rcases List.mem_cons.mp hx with h | h
        · exact absurd (h.trans ha) hne
        · exact List.mem_append.mpr (Or.inr (ih x h hne))
      · rw [replaceChar, if_neg ha]
        rcases List.mem_cons.mp hx with h | h
        · exact h ▸ List.mem_cons_self a _
        · exact List.mem_cons_of_mem a (ih x h hne)

/-- When the pattern occurs, all replacement characters occur afterwards. -/
theorem mem_rep_replaceChar :
    ∀ (c : Char) (rep l : List Char) (x : Char),
      c ∈ l → x ∈ rep → x ∈ replaceChar c rep l := by
  intro c rep l
  induction l with
  | nil => intro x hx _; simp at hx
  | cons a rest ih =>
      intro x hc hx
      by_cases ha : a = c
      · rw [replaceChar, if_pos ha]
        exact List.mem_append.mpr (Or.inl hx)
      · rw [replaceChar, if_neg ha]
        rcases List.mem_cons.mp hc with h | h
        · exact absurd h.symm ha
        · exact List.mem_cons_of_mem a (ih x h hx)

/-- Non-space characters survive the `" —  "` collapse. -/
theorem mem_replaceEmSpSp_of_ne_space :
    ∀ (l : List Char) (x : Char), x ∈ l → x ≠ ' ' → x ∈ replaceEmSpSp l := by
  intro l
  induction l using replaceEmSpSp.induct with
  | case1 rest ih =>
      intro x hx hne
      rw [replaceEmSpSp]
      simp only [List.mem_cons] at hx ⊢
      rcases hx with h | h | h | h | h
      · exact absurd h hne
      · exact Or.inr (Or.inl h)
      · exact absurd h hne
      · exact absurd h hne
      · exact Or.inr (Or.inr (Or.inr (ih x h hne)))
  | case2 a rest hcond ih =>
      intro x hx hne
      rw [replaceEmSpSp.eq_2 a rest hcond]
      simp only [List.mem_cons] at hx ⊢
      rcases hx with h | h
      · exact Or.inl h
      · exact Or.inr (ih x h hne)
  | case3 => intro x hx _; simp at hx

/-- Non-space characters survive the `"  — "` collapse. -/
theorem mem_replaceSpSpEm_of_ne_space :
    ∀ (l : List Char) (x : Char), x ∈ l → x ≠ ' ' → x ∈ replaceSpSpEm l := by
  intro l
  induction l using replaceSpSpEm.induct with
  | case1 rest ih =>
      intro x hx hne
      rw [replaceSpSpEm]
      simp only [List.mem_cons] at hx ⊢
      rcases hx with h | h | h | h | h
      · exact absurd h hne
      · exact absurd h hne
      · exact Or.inr (Or.inl h)
      · exact absurd h hne
      · exact Or.inr (Or.inr (Or.inr (ih x h hne)))
  | case2 a rest hcond ih =>
      intro x hx hne
      rw [replaceSpSpEm.eq_2 a rest hcond]
      simp only [List.mem_cons] at hx ⊢
      rcases hx with h | h
      · exact Or.inl h
      · exact Or.inr (ih x h hne)
  | case3 => intro x hx _; simp at hx

/-- `splitAux` with a non-empty accumulator yields at least one word. -/
theorem splitAux_ne_nil_of_acc :
    ∀ (l acc : List Char), acc ≠ [] → splitAux l acc ≠ [] := by
  intro l
  induction l with
  | nil =>
      intro acc hacc
      cases acc with
      | nil => exact absurd rfl hacc
      | cons a as => simp [splitAux]
  | cons c cs ih =>
      intro acc hacc
      cases hcv : isPySpace c with
      | true =>
          cases acc with
          | nil => exact absurd rfl hacc
          | cons a as => simp [splitAux, hcv]
      | false =>
          simp only [splitAux, hcv, Bool.false_eq_true, if_false]
          exact ih (c :: acc) (by simp)

/-- A list holding a non-space character splits into at least one word. -/
theorem splitAux_ne_nil :
    ∀ (l : List Char), (∃ c ∈ l, isPySpace c = false) → splitAux l [] ≠ [] := by
  intro l
  induction l with
  | nil => intro ⟨c, hc, _⟩; simp at hc
  | cons d ds ih =>
      intro ⟨c, hc, hcs⟩
      cases hdv : isPySpace d with
      | true =>
          simp only [splitAux, hdv, if_true, List.isEmpty_nil]
          refine ih ⟨c, ?_, hcs⟩
          rcases List.mem_cons.mp hc with h | h
          · subst h; rw [hdv] at hcs; cases hcs
          · exact h
      | false =>
          simp only [splitAux, hdv, Bool.false_eq_true, if_false]
          exact splitAux_ne_nil_of_acc ds [d] (by simp)

/-- A name containing a non-space character normalizes to a non-empty
string. -/
theorem normalizeName_ne_empty :
    ∀ s : String, (∃ c ∈ s.toList, isPySpace c = false) → normalizeName s ≠ "" := by
  intro s ⟨c, hc, hcs⟩
  have hspc : isPySpace ' ' = true := rfl
  -- a non-space character reaches the post-replacement list
  have h1 : ∃ d ∈ replaceChar '\\' repDash s.toList, isPySpace d = false := by
    by_cases hbc : c = '\\'
    · exact ⟨'—', mem_rep_replaceChar '\\' repDash s.toList '—' (hbc ▸ hc) (by decide), rfl⟩
    · exact ⟨c, mem_replaceChar_of_ne '\\' repDash s.toList c hc hbc, hcs⟩
  obtain ⟨d, hd, hds⟩ := h1
  have h2 : ∃ e ∈ replaceChar '/' repDash (replaceChar '\\' repDash s.toList),
      isPySpace e = false := by
    by_cases hsc : d = '/'
    · exact ⟨'—', mem_rep_replaceChar '/' repDash _ '—' (hsc ▸ hd) (by decide), rfl⟩
    · exact ⟨d, mem_replaceChar_of_ne '/' repDash _ d hd hsc, hds⟩
  obtain ⟨e, he, hes⟩ := h2
  have hene : e ≠ ' ' := fun h => by rw [h, hspc] at hes; cases hes
  have h3 : e ∈ replaceSpSpEm (replaceEmSpSp
      (replaceChar '/' repDash (replaceChar '\\' repDash s.toList))) :=
    mem_replaceSpSpEm_of_ne_space _ e (mem_replaceEmSpSp_of_ne_space _ e he hene) hene
  -- hence the split is non-empty and so is the joined, stripped result
  have hsplit : pySplit (replaceSpSpEm (replaceEmSpSp
      (replaceChar '/' repDash (replaceChar '\\' repDash s.toList)))) ≠ [] :=
    splitAux_ne_nil _ ⟨e, h3, hes⟩
  intro hempty
  have hlist : (normalizeName s).toList = [] := by rw [hempty]; rfl
  rw [normalizeName_toList] at hlist
  revert hlist
  cases hps : pySplit (replaceSpSpEm (replaceEmSpSp
      (replaceChar '/' repDash (replaceChar '\\' repDash s.toList)))) with
  | nil => exact absurd hps hsplit
  | cons w ws =>
      have hw := (normalizeName_words s) w (by rw [hps]; simp)
      exact joinWords_ne_nil w ws hw.1

/-- C7 counterexample: a node carrying the whitespace-only name `" "`
yields a patch whose name is the empty string. -/
theorem extract_patch_blank_name :
    extract_patch (.vdict [("name", .vstr " ")])
      = .ok ⟨"", [], [("_sourceClass", .vstr "")]⟩ := rfl

/-- C7 (corrected): `extract_patch` names the patch with
`normalize_name` of the node's name (placeholder `"Patch"` when the node
carries no truthy string name), so the name is normalized; it is
non-empty whenever the effective raw name contains a non-whitespace
character, but a whitespace-only raw name yields the empty string. -/
theorem extract_patch_name_normalized :
    ∀ (v : Value) (p : Patch), extract_patch v = .ok p →
      (∃ kvs, v = .vdict kvs ∧ p.name = normalizeName (nameOr kvs "Patch"))
      ∧ normalizeName p.name = p.name
      ∧ (∀ kvs, v = .vdict kvs →
          (∃ c ∈ (nameOr kvs "Patch").toList, isPySpace c = false) →
          p.name ≠ "") := by
  intro v p hp
  cases v with
  | vdict kvs =>
      have hname : p.name = normalizeName (nameOr kvs "Patch") := by
        cases hs : extract_channel_strips (.vdict kvs) with
        | error e => simp [extract_patch, hs, Except.bind, bind] at hp
        | ok strips =>
            simp [extract_patch, hs, Except.bind, bind, pure, Except.pure] at hp
            rw [← hp]
      refine ⟨⟨kvs, rfl, hname⟩, ?_, ?_⟩
      · rw [hname, normalizeName_idem]
      · intro kvs2 hv2 hex
        obtain rfl := (Value.vdict.injEq kvs2 kvs).mp hv2.symm
        rw [hname]
        exact normalizeName_ne_empty _ hex
  | vnull => simp [extract_patch] at hp
  | vbool b => simp [extract_patch] at hp
  | vint n => simp [extract_patch] at hp
  | vreal q => simp [extract_patch] at hp
  | vstr s => simp [extract_patch] at hp
  | vbytes bs => simp [extract_patch] at hp
  | vlist xs => simp [extract_patch] at hp

/-- Witness for C7: a node named "Lead Piano" yields that normalized,
non-empty patch name. -/
theorem extract_patch_name_normalized_witness :
    (Patch.mk "Lead Piano" [] [("_sourceClass", Value.vstr "")]).name ≠ "" :=
  (extract_patch_name_normalized (.vdict [("name", .vstr "Lead Piano")])
      ⟨"Lead Piano", [], [("_sourceClass", .vstr "")]⟩ rfl).2.2
    [("name", .vstr "Lead Piano")] rfl (by decide)

/-- A successful lookup yields a bound pair of the dictionary. -/
theorem dget_mem :
    ∀ (kvs : List (String × Value)) (k : String) (v : Value),
      dget kvs k = some v → (k, v) ∈ kvs := by
  intro kvs k v
  induction kvs with
  | nil => intro h; simp [dget] at h
  | cons a rest ih =>
      obtain ⟨k', v'⟩ := a
      intro h
      by_cases hk : k' = k
      · rw [dget, if_pos hk] at h
        obtain rfl := Option.some.inj h
        simp [hk]
      · rw [dget, if_neg hk] at h
        exact List.mem_cons_of_mem _ (ih h)

/-- All values of a well-formed dictionary body are well-formed. -/
theorem wfVals_forall :
    ∀ (kvs : List (String × Value)), wfVals kvs = true →
      ∀ kv ∈ kvs, WF kv.2 = true := by
  intro kvs
  induction kvs with
  | nil => intro _ kv hkv; simp at hkv
  | cons a rest ih =>
      obtain ⟨k, v⟩ := a
      intro h kv hkv
      rw [wfVals, Bool.and_eq_true] at h
      rcases List.mem_cons.mp hkv with h2 | h2
      · rw [h2]; exact h.1
      · exact ih h.2 kv h2

/-- `node.get(k)` on a well-formed dictionary is well-formed (a missing
key yields `None`, which is well-formed). -/
theorem wf_getOr :
    ∀ (kvs : List (String × Value)) (k : String),
      wfVals kvs = true → WF (getOr kvs k) = true := by
  intro kvs k h
  unfold getOr
  cases hd : dget kvs k with
  | none => rfl
  | some v => exact wfVals_forall kvs h (k, v) (dget_mem kvs k v hd)

/-- A truthy `node.get(k)` comes from a successful lookup. -/
theorem truthy_getOr_dget :
    ∀ (kvs : List (String × Value)) (k : String),
      truthy (getOr kvs k) = true → dget kvs k = some (getOr kvs k) := by
  intro kvs k h
  unfold getOr at h ⊢
  cases hd : dget kvs k with
  | none => rw [hd] at h; simp [truthy] at h
  | some v => simp [hd]

/-- A truthy string-or-falsy value is a string. -/
theorem strOrFalsy_truthy :
    ∀ v : Value, strOrFalsy v = true → truthy v = true → ∃ s, v = .vstr s := by
  intro v h ht
  cases v with
  | vstr s => exact ⟨s, rfl⟩
  | vnull => simp [truthy] at ht
  | vbool b =>
      have h2 : (!truthy (Value.vbool b)) = true := h
      rw [ht] at h2
      exact absurd h2 (by decide)
  | vint n =>
      have h2 : (!truthy (Value.vint n)) = true := h
      rw [ht] at h2
      exact absurd h2 (by decide)
  | vreal q =>
      have h2 : (!truthy (Value.vreal q)) = true := h
      rw [ht] at h2
      exact absurd h2 (by decide)
  | vbytes bs =>
      have h2 : (!truthy (Value.vbytes bs)) = true := h
      rw [ht] at h2
      exact absurd h2 (by decide)
  | vlist xs =>
      have h2 : (!truthy (Value.vlist xs)) = true := h
      rw [ht] at h2
      exact absurd h2 (by decide)
  | vdict kvs =>
      have h2 : (!truthy (Value.vdict kvs)) = true := h
      rw [ht] at h2
      exact absurd h2 (by decide)

/-- A truthy sequence-or-falsy value is a sequence. -/
theorem listOrFalsy_truthy :
    ∀ v : Value, listOrFalsy v = true → truthy v = true → ∃ xs, v = .vlist xs := by
  intro v h ht
  cases v with
  | vlist xs => exact ⟨xs, rfl⟩
  | vnull => simp [truthy] at ht
  | vbool b =>
      have h2 : (!truthy (Value.vbool b)) = true := h
      rw [ht] at h2
      exact absurd h2 (by decide)
  | vint n =>
      have h2 : (!truthy (Value.vint n)) = true := h
      rw [ht] at h2
      exact absurd h2 (by decide)
  | vreal q =>
      have h2 : (!truthy (Value.vreal q)) = true := h
      rw [ht] at h2
      exact absurd h2 (by decide)
  | vstr s =>
      have h2 : (!truthy (Value.vstr s)) = true := h
      rw [ht] at h2
      exact absurd h2 (by decide)
  | vbytes bs =>
      have h2 : (!truthy (Value.vbytes bs)) = true := h
      rw [ht] at h2
      exact absurd h2 (by decide)
  | vdict kvs =>
      have h2 : (!truthy (Value.vdict kvs)) = true := h
      rw [ht] at h2
      exact absurd h2 (by decide)

/-- The `(a or b or "")` chain under the string-or-falsy condition on
`(a or b)` evaluates to a string. -/
theorem pyOr_chain_vstr :
    ∀ (a b : Value) (d : String), strOrFalsy (pyOr a b) = true →
      ∃ s, pyOr a (pyOr b (.vstr d)) = .vstr s := by
  intro a b d h
  by_cases ha : truthy a = true
  · have hab : pyOr a b = a := by rw [pyOr, if_pos ha]
    rw [hab] at h
    obtain ⟨s, rfl⟩ := strOrFalsy_truthy a h ha
    exact ⟨s, by rw [pyOr, if_pos ha]⟩
  · have hfa : truthy a = false := by revert ha; cases truthy a <;> simp
    have hab : pyOr a b = b := by simp [pyOr, hfa]
    rw [hab] at h
    by_cases hb : truthy b = true
    · obtain ⟨s, rfl⟩ := strOrFalsy_truthy b h hb
      exact ⟨s, by simp [pyOr, hfa, hb]⟩
    · have hfb : truthy b = false := by revert hb; cases truthy b <;> simp
      exact ⟨d, by simp [pyOr, hfa, hfb]⟩

/-- A result known to be `ok` exists. -/
theorem isOk_exists {α : Type} :
    ∀ (e : Except String α), e.isOk = true → ∃ a, e = .ok a := by
  intro e h
  cases e with
  | ok a => exact ⟨a, rfl⟩
  | error e => simp [Except.isOk, Except.toBool] at h

/-- An `ok` result is `isOk`. -/
theorem exists_isOk {α : Type} :
    ∀ (e : Except String α) (a : α), e = .ok a → e.isOk = true := by
  intro e a h
  rw [h]
  rfl

/-- `classify_node` succeeds on any dictionary whose name field obeys
the shape condition. -/
theorem classify_node_ok :
    ∀ kvs, keysOk kvs = true → ∃ r, classify_node (.vdict kvs) = .ok r := by
  intro kvs hk
  simp only [keysOk, Bool.and_eq_true] at hk
  obtain ⟨⟨⟨⟨hname, _⟩, _⟩, _⟩, _⟩ := hk
  obtain ⟨s, hs⟩ := pyOr_chain_vstr _ _ "" hname
  simp only [classify_node]
  rw [hs]
  show ∃ r, (if strContains "set" (lowerStr (node_class kvs)) = true
      then (Except.ok "set" : Except String String)
    else if "set ".toList.isPrefixOf (lowerStr s).toList = true then Except.ok "set"
    else if strContains "patch" (lowerStr (node_class kvs)) = true then Except.ok "patch"
    else match pyOr (getOr kvs "children") (getOr kvs "_children") with
      | Value.vlist xs => Except.ok "set"
      | x => Except.ok "unknown") = Except.ok r
  by_cases h1 : strContains "set" (lowerStr (node_class kvs)) = true
  · exact ⟨"set", by rw [if_pos h1]⟩
  · by_cases h2 : "set ".toList.isPrefixOf (lowerStr s).toList = true
    · exact ⟨"set", by rw [if_neg h1, if_pos h2]⟩
    · by_cases h3 : strContains "patch" (lowerStr (node_class kvs)) = true
      · exact ⟨"patch", by rw [if_neg h1, if_neg h2, if_pos h3]⟩
      · cases hch : pyOr (getOr kvs "children") (getOr kvs "_children") with
        | vlist xs =>
            refine ⟨"set", ?_⟩
            rw [if_neg h1, if_neg h2, if_neg h3]
        | vnull =>
            refine ⟨"unknown", ?_⟩
            rw [if_neg h1, if_neg h2, if_neg h3]
        | vbool b =>
            refine ⟨"unknown", ?_⟩
            rw [if_neg h1, if_neg h2, if_neg h3]
        | vint n =>
            refine ⟨"unknown", ?_⟩
            rw [if_neg h1, if_neg h2, if_neg h3]
        | vreal q =>
            refine ⟨"unknown", ?_⟩
            rw [if_neg h1, if_neg h2, if_neg h3]
        | vstr t =>
            refine ⟨"unknown", ?_⟩
            rw [if_neg h1, if_neg h2, if_neg h3]
        | vbytes bs =>
            refine ⟨"unknown", ?_⟩
            rw [if_neg h1, if_neg h2, if_neg h3]
        | vdict d =>
            refine ⟨"unknown", ?_⟩
            rw [if_neg h1, if_neg h2, if_neg h3]

/-- `infer_strip_kind` succeeds on any dictionary whose type field obeys
the shape condition. -/
theorem infer_strip_kind_ok :
    ∀ kvs, keysOk kvs = true → ∃ r, infer_strip_kind kvs = .ok r := by
  intro kvs hk
  simp only [keysOk, Bool.and_eq_true] at hk
  obtain ⟨⟨⟨⟨_, hstrip⟩, _⟩, _⟩, _⟩ := hk
  obtain ⟨s, hs⟩ := pyOr_chain_vstr _ _ "" hstrip
  refine isOk_exists _ ?_
  unfold infer_strip_kind
  rw [hs]
  show (if strContains "inst" (lowerStr s) = true
      then (Except.ok "instrument" : Except String String)
    else if strContains "audio" (lowerStr s) = true then Except.ok "audio"
    else if strContains "midi" (lowerStr s) = true then Except.ok "midi"
    else if (["instrument", "softwareInstrument", "instrumentPlugin"].any
        fun k => (dget kvs k).isSome) = true then Except.ok "instrument"
    else Except.ok "instrument").isOk = true
  repeat (first | rfl | split)

/-- `parse_channel_strip` succeeds on any shape-conforming dictionary. -/
theorem parse_channel_strip_ok :
    ∀ kvs, keysOk kvs = true → ∃ cs, parse_channel_strip (.vdict kvs) = .ok cs := by
  intro kvs hk
  obtain ⟨r, hr⟩ := infer_strip_kind_ok kvs hk
  refine isOk_exists _ ?_
  simp only [parse_channel_strip]
  rw [hr]
  rfl

/-- Elements of a well-formed sequence are well-formed dictionaries. -/
theorem wfElems_forall :
    ∀ xs, wfElems xs = true → ∀ x ∈ xs, (∃ d, x = .vdict d) ∧ WF x = true := by
  intro xs
  induction xs with
  | nil => intro _ x hx; simp at hx
  | cons v vs ih =>
      intro h x hx
      rw [wfElems, Bool.and_eq_true, Bool.and_eq_true] at h
      obtain ⟨⟨hdict, hwf⟩, hrest⟩ := h
      rcases List.mem_cons.mp hx with h2 | h2
      · subst h2
        refine ⟨?_, hwf⟩
        cases x with
        | vdict d => exact ⟨d, rfl⟩
        | vnull => simp [Value.isDict] at hdict
        | vbool b => simp [Value.isDict] at hdict
        | vint n => simp [Value.isDict] at hdict
        | vreal q => simp [Value.isDict] at hdict
        | vstr s => simp [Value.isDict] at hdict
        | vbytes bs => simp [Value.isDict] at hdict
        | vlist ys => simp [Value.isDict] at hdict
      · exact ih hrest x h2

/-- The strip loop succeeds on a well-formed candidate sequence. -/
theorem parseStrips_ok :
    ∀ xs, wfElems xs = true → ∃ l, parseStrips xs = .ok l := by
  intro xs
  induction xs with
  | nil => intro _; exact ⟨[], rfl⟩
  | cons v vs ih =>
      intro h
      rw [wfElems, Bool.and_eq_true, Bool.and_eq_true] at h
      obtain ⟨⟨hdict, hwf⟩, hrest⟩ := h
      obtain ⟨l, hl⟩ := ih hrest
      obtain ⟨d, rfl⟩ := (wfElems_forall (v :: vs)
        (by rw [wfElems, Bool.and_eq_true, Bool.and_eq_true]; exact ⟨⟨hdict, hwf⟩, hrest⟩)
        v (by simp)).1
      rw [WF, Bool.and_eq_true] at hwf
      obtain ⟨cs, hcs⟩ := parse_channel_strip_ok d hwf.1
      exact ⟨cs :: l, by simp [parseStrips, hcs, hl, Except.bind, bind, pure, Except.pure]⟩

/-- The candidate strip sequence of a well-formed dictionary is
well-formed. -/
theorem stripCandidates_wf :
    ∀ kvs, wfVals kvs = true → wfElems (stripCandidates kvs) = true := by
  intro kvs hv
  have hprimary : ∀ xs, (["channelStrips", "channel_strips", "strips",
      "mixerStrips"].findSome? (fun k => match dget kvs k with
        | some (.vlist xs) => some xs | _ => none)) = some xs →
      wfElems xs = true := by
    intro xs hfs
    obtain ⟨k, _, hfk⟩ := List.exists_of_findSome?_eq_some hfs
    cases hd : dget kvs k with
    | none => rw [hd] at hfk; simp at hfk
    | some v =>
        rw [hd] at hfk
        cases v with
        | vlist ys =>
            have h2 : some ys = some xs := hfk
            have h4 : WF (Value.vlist xs) = true := by
              rw [← Option.some.inj h2]
              exact wfVals_forall kvs hv (k, .vlist ys) (dget_mem _ _ _ hd)
            exact h4
        | vnull => simp at hfk
        | vbool b => simp at hfk
        | vint n => simp at hfk
        | vreal q => simp at hfk
        | vstr s => simp at hfk
        | vbytes bs => simp at hfk
        | vdict d => simp at hfk
  have hfallback : ∀ xs, (kvs.findSome? (fun kv => match kv.2 with
      | .vlist (Value.vdict p :: ys) =>
          if stripIndicative.any (fun s => (dget p s).isSome)
          then some (Value.vdict p :: ys) else none
      | _ => none)) = some xs → wfElems xs = true := by
    intro xs hfs
    obtain ⟨kv, hmem, hfk⟩ := List.exists_of_findSome?_eq_some hfs
    have hwf : WF kv.2 = true := wfVals_forall kvs hv kv hmem
    cases hkv2 : kv.2 with
    | vlist ys =>
        rw [hkv2] at hfk
        cases ys with
        | nil => simp at hfk
        | cons y ys2 =>
            cases y with
            | vdict p =>
                by_cases hind : stripIndicative.any (fun s => (dget p s).isSome) = true
                · simp only [hind, if_true] at hfk
                  obtain rfl := Option.some.inj hfk
                  rw [hkv2] at hwf
                  exact hwf
                · simp [hind] at hfk
            | vnull => simp at hfk
            | vbool b => simp at hfk
            | vint n => simp at hfk
            | vreal q => simp at hfk
            | vstr s => simp at hfk
            | vbytes bs => simp at hfk
            | vlist zs => simp at hfk
    | vnull => rw [hkv2] at hfk; simp at hfk
    | vbool b => rw [hkv2] at hfk; simp at hfk
    | vint n => rw [hkv2] at hfk; simp at hfk
    | vreal q => rw [hkv2] at hfk; simp at hfk
    | vstr s => rw [hkv2] at hfk; simp at hfk
    | vbytes bs => rw [hkv2] at hfk; simp at hfk
    | vdict d => rw [hkv2] at hfk; simp at hfk
  unfold stripCandidates
  cases hp : ["channelStrips", "channel_strips", "strips", "mixerStrips"].findSome?
      (fun k => match dget kvs k with | some (.vlist xs) => some xs | _ => none) with
  | none =>
      simp only [hp, Option.getD_none, List.isEmpty_nil, if_true]
      cases hf : kvs.findSome? (fun kv => match kv.2 with
        | .vlist (Value.vdict p :: ys) =>
            if stripIndicative.any (fun s => (dget p s).isSome)
            then some (Value.vdict p :: ys) else none
        | _ => none) with
      | none => simp only [hf, Option.getD_none]; rfl
      | some ys => simp only [hf, Option.getD_some]; exact hfallback ys hf
  | some xs =>
      simp only [hp, Option.getD_some]
      by_cases hxe : xs.isEmpty = true
      · simp only [hxe, if_true]
        cases hf : kvs.findSome? (fun kv => match kv.2 with
          | .vlist (Value.vdict p :: ys) =>
              if stripIndicative.any (fun s => (dget p s).isSome)
              then some (Value.vdict p :: ys) else none
          | _ => none) with
        | none => simp only [hf, Option.getD_none]; rfl
        | some ys => simp only [hf, Option.getD_some]; exact hfallback ys hf
      · have hxf : xs.isEmpty = false := by
          revert hxe; cases xs.isEmpty <;> simp
        simp only [hxf, Bool.false_eq_true, if_false]
        exact hprimary xs hp

/-- `extract_channel_strips` succeeds on every well-formed dictionary. -/
theorem extract_channel_strips_ok :
    ∀ kvs, wfVals kvs = true → ∃ l, extract_channel_strips (.vdict kvs) = .ok l := by
  intro kvs hv
  obtain ⟨l, hl⟩ := parseStrips_ok _ (stripCandidates_wf kvs hv)
  exact ⟨l, hl⟩

/-- `extract_patch` succeeds on every well-formed dictionary. -/
theorem extract_patch_ok :
    ∀ kvs, wfVals kvs = true → ∃ p, extract_patch (.vdict kvs) = .ok p := by
  intro kvs hv
  obtain ⟨l, hl⟩ := extract_channel_strips_ok kvs hv
  refine isOk_exists _ ?_
  simp only [extract_patch]
  rw [hl]
  rfl

/-- Values have positive size. -/
theorem vsize_pos : ∀ v : Value, 0 < vsize v := by
  intro v
  cases v with
  | vlist xs => show 0 < 1 + lsize xs; omega
  | vdict kvs => show 0 < 1 + dsize kvs; omega
  | vnull => show 0 < 1; decide
  | vbool b => show 0 < 1; decide
  | vint n => show 0 < 1; decide
  | vreal q => show 0 < 1; decide
  | vstr s => show 0 < 1; decide
  | vbytes bs => show 0 < 1; decide

/-- A dictionary-shaped value carries a dictionary. -/
theorem isDict_exists : ∀ v : Value, v.isDict = true → ∃ d, v = .vdict d := by
  intro v hd
  cases v with
  | vdict d => exact ⟨d, rfl⟩
  | vnull => simp [Value.isDict] at hd
  | vbool b => simp [Value.isDict] at hd
  | vint n => simp [Value.isDict] at hd
  | vreal q => simp [Value.isDict] at hd
  | vstr s => simp [Value.isDict] at hd
  | vbytes bs => simp [Value.isDict] at hd
  | vlist xs => simp [Value.isDict] at hd

/-- The recursive patch scan, its child-key traversal and its list loop
all succeed on well-formed input, by strong induction on size. -/
theorem walker_ok : ∀ n : Nat,
    (∀ (kvs : List (String × Value)) (k : String), dsize kvs < n →
        wfVals kvs = true → ∃ l, childPatches kvs k = .ok l)
    ∧ (∀ kvs, dsize kvs < n → WF (.vdict kvs) = true →
        ∃ l, extract_patches_recursive (.vdict kvs) = .ok l)
    ∧ (∀ xs, lsize xs < n → wfElems xs = true → ∃ l, eprList xs = .ok l) := by
  intro n
  induction n using Nat.strong_induction_on with
  | _ n IH =>
      have hB : ∀ (kvs : List (String × Value)) (k : String), dsize kvs < n →
          wfVals kvs = true → ∃ l, childPatches kvs k = .ok l := by
        intro kvs k hsz hv
        cases kvs with
        | nil => exact ⟨[], rfl⟩
        | cons a rest =>
            obtain ⟨k', v⟩ := a
            by_cases hk : k' = k
            · have hlists : ∃ l, childLists v = .ok l := by
                cases v with
                | vlist xs =>
                    have hwfx : wfElems xs = true := by
                      have h2 := wfVals_forall _ hv (k', Value.vlist xs) (by simp)
                      exact h2
                    have hm : lsize xs < dsize ((k', Value.vlist xs) :: rest) := by
                      show lsize xs < vsize (Value.vlist xs) + dsize rest
                      have he : vsize (Value.vlist xs) = 1 + lsize xs := rfl
                      omega
                    obtain ⟨l, hl⟩ := (IH _ hsz).2.2 xs hm hwfx
                    exact ⟨l, hl⟩
                | vnull => exact ⟨[], rfl⟩
                | vbool b => exact ⟨[], rfl⟩
                | vint m => exact ⟨[], rfl⟩
                | vreal q => exact ⟨[], rfl⟩
                | vstr s => exact ⟨[], rfl⟩
                | vbytes bs => exact ⟨[], rfl⟩
                | vdict d => exact ⟨[], rfl⟩
              obtain ⟨l, hl⟩ := hlists
              refine ⟨l, ?_⟩
              rw [childPatches, if_pos hk]
              exact hl
            · have hrest : dsize rest < dsize ((k', v) :: rest) := by
                show dsize rest < vsize v + dsize rest
                have := vsize_pos v
                omega
              have hvrest : wfVals rest = true := by
                rw [wfVals, Bool.and_eq_true] at hv
                exact hv.2
              obtain ⟨l, hl⟩ := (IH _ hsz).1 rest k hrest hvrest
              refine ⟨l, ?_⟩
              rw [childPatches, if_neg hk]
              exact hl
      have hA : ∀ kvs, dsize kvs < n → WF (.vdict kvs) = true →
          ∃ l, extract_patches_recursive (.vdict kvs) = .ok l := by
        intro kvs hsz hwf
        rw [WF, Bool.and_eq_true] at hwf
        obtain ⟨hk, hv⟩ := hwf
        obtain ⟨r, hr⟩ := classify_node_ok kvs hk
        obtain ⟨l1, hl1⟩ := hB kvs "children" hsz hv
        obtain ⟨l2, hl2⟩ := hB kvs "_children" hsz hv
        obtain ⟨l3, hl3⟩ := hB kvs "patches" hsz hv
        simp only [extract_patches_recursive]
        rw [hr]
        by_cases hrp : r = "patch"
        · obtain ⟨p, hp⟩ := extract_patch_ok kvs hv
          refine ⟨[p] ++ (l1 ++ (l2 ++ l3)), ?_⟩
          simp [Except.bind, bind, hrp, hp, hl1, hl2, hl3, pure, Except.pure]
        · refine ⟨[] ++ (l1 ++ (l2 ++ l3)), ?_⟩
          simp [Except.bind, bind, hrp, hl1, hl2, hl3, pure, Except.pure]
      have hC : ∀ xs, lsize xs < n → wfElems xs = true → ∃ l, eprList xs = .ok l := by
        intro xs hsz hwf
        cases xs with
        | nil => exact ⟨[], rfl⟩
        | cons v vs =>
            rw [wfElems, Bool.and_eq_true, Bool.and_eq_true] at hwf
            obtain ⟨⟨hdict, hwfv⟩, hrest⟩ := hwf
            obtain ⟨d, rfl⟩ := isDict_exists v hdict
            have hdm : dsize d < lsize (Value.vdict d :: vs) := by
              show dsize d < vsize (Value.vdict d) + lsize vs
              have he : vsize (Value.vdict d) = 1 + dsize d := rfl
              omega
            obtain ⟨p, hp⟩ := (IH _ hsz).2.1 d hdm hwfv
            have hvm : lsize vs < lsize (Value.vdict d :: vs) := by
              show lsize vs < vsize (Value.vdict d) + lsize vs
              have := vsize_pos (Value.vdict d)
              omega
            obtain ⟨lr, hlr⟩ := (IH _ hsz).2.2 vs hvm hrest
            exact ⟨p ++ lr, by
              simp [eprList, hp, hlr, Except.bind, bind, pure, Except.pure]⟩
      exact ⟨hB, hA, hC⟩

/-- `extract_patches_recursive` succeeds on well-formed dictionaries. -/
theorem extract_patches_recursive_ok :
    ∀ kvs, WF (.vdict kvs) = true →
      ∃ l, extract_patches_recursive (.vdict kvs) = .ok l :=
  fun kvs h => (walker_ok (dsize kvs + 1)).2.1 kvs (by omega) h

/-- The set-children loop succeeds on a well-formed child sequence. -/
theorem efsChildren_ok :
    ∀ xs, wfElems xs = true → ∃ l, efsChildren xs = .ok l := by
  intro xs
  induction xs with
  | nil => intro _; exact ⟨[], rfl⟩
  | cons v vs ih =>
      intro h
      rw [wfElems, Bool.and_eq_true, Bool.and_eq_true] at h
      obtain ⟨⟨hdict, hwfv⟩, hrest⟩ := h
      obtain ⟨d, rfl⟩ := isDict_exists v hdict
      have hwfv2 := hwfv
      rw [WF, Bool.and_eq_true] at hwfv2
      obtain ⟨r, hr⟩ := classify_node_ok d hwfv2.1
      obtain ⟨lrest, hlrest⟩ := ih hrest
      by_cases hrp : r = "patch"
      · obtain ⟨p, hp⟩ := extract_patch_ok d hwfv2.2
        exact ⟨[p] ++ lrest, by
          simp [efsChildren, hr, hrp, hp, hlrest, Except.bind, bind, pure, Except.pure]⟩
      · obtain ⟨lv, hlv⟩ := extract_patches_recursive_ok d hwfv
        exact ⟨lv ++ lrest, by
          simp [efsChildren, hr, hrp, hlv, hlrest, Except.bind, bind, pure, Except.pure]⟩

/-- The `(children or _children or patches or [])` chain of a
shape-conforming dictionary is a well-formed sequence. -/
theorem children_chain_list :
    ∀ kvs, keysOk kvs = true → wfVals kvs = true →
      ∃ xs, pyOr (getOr kvs "children") (pyOr (getOr kvs "_children")
          (pyOr (getOr kvs "patches") (.vlist []))) = .vlist xs
        ∧ wfElems xs = true := by
  intro kvs hk hv
  simp only [keysOk, Bool.and_eq_true] at hk
  obtain ⟨⟨⟨⟨_, _⟩, hc1⟩, hc2⟩, hc3⟩ := hk
  by_cases h1 : truthy (getOr kvs "children") = true
  · obtain ⟨xs, hxs⟩ := listOrFalsy_truthy _ hc1 h1
    refine ⟨xs, by rw [pyOr, if_pos h1, hxs], ?_⟩
    have hw := wf_getOr kvs "children" hv
    rw [hxs] at hw
    exact hw
  · have h1f : truthy (getOr kvs "children") = false := by
      revert h1; cases truthy (getOr kvs "children") <;> simp
    have hstep1 : ∀ Y, pyOr (getOr kvs "children") Y = Y := by
      intro Y; simp [pyOr, h1f]
    rw [hstep1]
    by_cases h2 : truthy (getOr kvs "_children") = true
    · obtain ⟨xs, hxs⟩ := listOrFalsy_truthy _ hc2 h2
      refine ⟨xs, by rw [pyOr, if_pos h2, hxs], ?_⟩
      have hw := wf_getOr kvs "_children" hv
      rw [hxs] at hw
      exact hw
    · have h2f : truthy (getOr kvs "_children") = false := by
        revert h2; cases truthy (getOr kvs "_children") <;> simp
      have hstep2 : ∀ Y, pyOr (getOr kvs "_children") Y = Y := by
        intro Y; simp [pyOr, h2f]
      rw [hstep2]
      by_cases h3 : truthy (getOr kvs "patches") = true
      · obtain ⟨xs, hxs⟩ := listOrFalsy_truthy _ hc3 h3
        refine ⟨xs, by rw [pyOr, if_pos h3, hxs], ?_⟩
        have hw := wf_getOr kvs "patches" hv
        rw [hxs] at hw
        exact hw
      · have h3f : truthy (getOr kvs "patches") = false := by
          revert h3; cases truthy (getOr kvs "patches") <;> simp
        exact ⟨[], by simp [pyOr, h3f], rfl⟩

/-- `extract_patches_from_set` succeeds on well-formed dictionaries. -/
theorem extract_patches_from_set_ok :
    ∀ kvs, WF (.vdict kvs) = true →
      ∃ l, extract_patches_from_set (.vdict kvs) = .ok l := by
  intro kvs hwf
  rw [WF, Bool.and_eq_true] at hwf
  obtain ⟨hk, hv⟩ := hwf
  obtain ⟨xs, hxs, hwfxs⟩ := children_chain_list kvs hk hv
  obtain ⟨l, hl⟩ := efsChildren_ok xs hwfxs
  refine ⟨l, ?_⟩
  simp only [extract_patches_from_set]
  rw [hxs]
  exact hl

/-- A successful key probe returns a well-formed child sequence. -/
theorem keyProbe_wf :
    ∀ kvs xs, wfVals kvs = true → keyProbe kvs = some xs → wfElems xs = true := by
  intro kvs xs hv hp
  obtain ⟨k, _, hfk⟩ := List.exists_of_findSome?_eq_some hp
  cases hd : dget kvs k with
  | none => rw [hd] at hfk; simp at hfk
  | some v =>
      rw [hd] at hfk
      cases v with
      | vlist ys =>
          by_cases hye : ys.isEmpty = true
          · have h2 : (if ys.isEmpty then none
                else some ys : Option (List Value)) = some xs := hfk
            rw [hye] at h2
            simp at h2
          · have hyf : ys.isEmpty = false := by
              revert hye; cases ys.isEmpty <;> simp
            have h2 : (if ys.isEmpty then none
                else some ys : Option (List Value)) = some xs := hfk
            rw [hyf] at h2
            simp at h2
            have hw := wfVals_forall kvs hv (k, .vlist ys) (dget_mem _ _ _ hd)
            rw [h2] at hw
            exact hw
      | vnull => simp at hfk
      | vbool b => simp at hfk
      | vint n => simp at hfk
      | vreal q => simp at hfk
      | vstr s => simp at hfk
      | vbytes bs => simp at hfk
      | vdict d => simp at hfk

/-- The recursive value scan of `find_patchlist_children` returns a
well-formed child sequence, by strong induction on size. -/
theorem fplcScan_wf :
    ∀ (n : Nat) (kvs : List (String × Value)) (xs : List Value), dsize kvs < n →
      wfVals kvs = true → fplcScan kvs = some xs → wfElems xs = true := by
  intro n
  induction n using Nat.strong_induction_on with
  | _ n IH =>
      intro kvs xs hsz hv hf
      cases kvs with
      | nil => simp [fplcScan] at hf
      | cons a rest =>
          obtain ⟨k, v⟩ := a
          have hvwf : WF v = true := wfVals_forall _ hv (k, v) (by simp)
          have hvrest : wfVals rest = true := by
            rw [wfVals, Bool.and_eq_true] at hv
            exact hv.2
          have hrestsz : dsize rest < dsize ((k, v) :: rest) := by
            show dsize rest < vsize v + dsize rest
            have := vsize_pos v
            omega
          cases v with
          | vdict d =>
              have hdwf : wfVals d = true := by
                rw [WF, Bool.and_eq_true] at hvwf
                exact hvwf.2
              have hdsz : dsize d < dsize ((k, Value.vdict d) :: rest) := by
                show dsize d < vsize (Value.vdict d) + dsize rest
                have he : vsize (Value.vdict d) = 1 + dsize d := rfl
                omega
              rw [fplcScan.eq_def] at hf
              have hf0 : (match keyProbe d with
                  | some ys => if ys.isEmpty = true then fplcScan rest else some ys
                  | none => match fplcScan d with
                      | some ch => if ch.isEmpty = true then fplcScan rest else some ch
                      | none => fplcScan rest) = some xs := hf
              cases hkp : keyProbe d with
              | some ys =>
                  rw [hkp] at hf0
                  have hf2 : (if ys.isEmpty = true then fplcScan rest
                      else some ys) = some xs := hf0
                  by_cases hye : ys.isEmpty = true
                  · rw [hye] at hf2
                    simp at hf2
                    exact IH _ hsz rest xs hrestsz hvrest hf2
                  · have hyf : ys.isEmpty = false := by
                      revert hye; cases ys.isEmpty <;> simp
                    rw [hyf] at hf2
                    simp at hf2
                    rw [← hf2]
                    exact keyProbe_wf d ys hdwf hkp
              | none =>
                  rw [hkp] at hf0
                  have hf2 : (match fplcScan d with
                      | some ch => if ch.isEmpty = true then fplcScan rest else some ch
                      | none => fplcScan rest) = some xs := hf0
                  cases hsc : fplcScan d with
                  | some ch =>
                      rw [hsc] at hf2
                      have hf3 : (if ch.isEmpty = true then fplcScan rest
                          else some ch) = some xs := hf2
                      by_cases hce : ch.isEmpty = true
                      · rw [hce] at hf3
                        simp at hf3
                        exact IH _ hsz rest xs hrestsz hvrest hf3
                      · have hcf : ch.isEmpty = false := by
                          revert hce; cases ch.isEmpty <;> simp
                        rw [hcf] at hf3
                        simp at hf3
                        rw [← hf3]
                        exact IH _ hsz d ch hdsz hdwf hsc
                  | none =>
                      rw [hsc] at hf2
                      exact IH _ hsz rest xs hrestsz hvrest hf2
          | vnull =>
              rw [fplcScan.eq_def] at hf
              exact IH _ hsz rest xs hrestsz hvrest hf
          | vbool b =>
              rw [fplcScan.eq_def] at hf
              exact IH _ hsz rest xs hrestsz hvrest hf
          | vint m =>
              rw [fplcScan.eq_def] at hf
              exact IH _ hsz rest xs hrestsz hvrest hf
          | vreal q =>
              rw [fplcScan.eq_def] at hf
              exact IH _ hsz rest xs hrestsz hvrest hf
          | vstr s =>
              rw [fplcScan.eq_def] at hf
              exact IH _ hsz rest xs hrestsz hvrest hf
          | vbytes bs =>
              rw [fplcScan.eq_def] at hf
              exact IH _ hsz rest xs hrestsz hvrest hf
          | vlist ys =>
              rw [fplcScan.eq_def] at hf
              exact IH _ hsz rest xs hrestsz hvrest hf

/-- Located root children of a well-formed document are well-formed. -/
theorem find_children_wf :
    ∀ kvs xs, WF (.vdict kvs) = true → find_patchlist_children kvs = some xs →
      wfElems xs = true := by
  intro kvs xs hwf hf
  rw [WF, Bool.and_eq_true] at hwf
  obtain ⟨_, hv⟩ := hwf
  unfold find_patchlist_children at hf
  cases hkp : keyProbe kvs with
  | some ys =>
      rw [hkp] at hf
      simp at hf
      rw [← hf]
      exact keyProbe_wf kvs ys hv hkp
  | none =>
      rw [hkp] at hf
      exact fplcScan_wf (dsize kvs + 1) kvs xs (by omega) hv hf

/-- One iteration of the root-children loop succeeds on a well-formed
dictionary child. -/
theorem rootChildSets_ok :
    ∀ v, v.isDict = true → WF v = true → ∃ l, rootChildSets v = .ok l := by
  intro v hd hwf
  obtain ⟨kvs, rfl⟩ := isDict_exists v hd
  have hwf2 := hwf
  rw [WF, Bool.and_eq_true] at hwf2
  obtain ⟨hk, hv⟩ := hwf2
  obtain ⟨r, hr⟩ := classify_node_ok kvs hk
  by_cases hrs : r = "set"
  · obtain ⟨ps, hps⟩ := extract_patches_from_set_ok kvs hwf
    refine ⟨[⟨normalizeName (nameOr kvs "Set"), ps,
        [("_sourceClass", Value.vstr (node_class kvs))]⟩], ?_⟩
    simp [rootChildSets, hr, hrs, hps, Except.bind, bind, pure, Except.pure]
  · by_cases hrp : r = "patch"
    · obtain ⟨p, hp⟩ := extract_patch_ok kvs hv
      refine ⟨[⟨p.name, [p], [("_implicit", Value.vbool true)]⟩], ?_⟩
      simp [rootChildSets, hr, hrs, hrp, hp, Except.bind, bind, pure, Except.pure]
    · obtain ⟨ps, hps⟩ := extract_patches_recursive_ok kvs hwf
      by_cases hpe : ps.isEmpty = true
      · refine ⟨[], ?_⟩
        simp [rootChildSets, hr, hrs, hrp, hps, hpe, Except.bind, bind, pure, Except.pure]
      · have hpf : ps.isEmpty = false := by
          revert hpe; cases ps.isEmpty <;> simp
        refine ⟨[⟨nameOr kvs "Set", ps,
            [("_sourceClass", Value.vstr (node_class kvs))]⟩], ?_⟩
        simp [rootChildSets, hr, hrs, hrp, hps, hpf, Except.bind, bind, pure, Except.pure]

/-- The root-children loop succeeds on a well-formed child sequence. -/
theorem rootSets_ok :
    ∀ xs, wfElems xs = true → ∃ l, rootSets xs = .ok l := by
  intro xs
  induction xs with
  | nil => intro _; exact ⟨[], rfl⟩
  | cons v vs ih =>
      intro h
      rw [wfElems, Bool.and_eq_true, Bool.and_eq_true] at h
      obtain ⟨⟨hdict, hwfv⟩, hrest⟩ := h
      obtain ⟨s1, hs1⟩ := rootChildSets_ok v hdict hwfv
      obtain ⟨lrest, hlrest⟩ := ih hrest
      exact ⟨s1 ++ lrest, by
        simp [rootSets, hs1, hlrest, Except.bind, bind, pure, Except.pure]⟩

/-- C1 counterexample: a decodable document whose located root children
hold a scalar makes the walker raise (`classify_node` accesses a field
of a non-dictionary), so the extraction is not total on all decoded
document values. -/
theorem extract_raises_on_scalar_child :
    (extract_sets_and_patches [("children", .vlist [.vint 1])]).isOk = false := rfl

/-- C1 (corrected): the extraction never raises on a decoded document
provided every sequence element in it is a map, every truthy
name/Name/stripType/type field is a string, and every truthy
children/_children/patches field is a sequence; on such documents
`extract_sets_and_patches` and every step it invokes returns a result,
treating malformed or absent fields as absent. -/
theorem extract_total_on_wellformed :
    ∀ kvs, WF (.vdict kvs) = true → (extract_sets_and_patches kvs).isOk = true := by
  intro kvs hwf
  unfold extract_sets_and_patches
  cases hf : find_patchlist_children kvs with
  | none =>
      obtain ⟨l, hl⟩ := extract_patches_recursive_ok kvs hwf
      simp [hf, hl, Except.bind, bind, pure, Except.pure, Except.isOk, Except.toBool]
  | some rc =>
      by_cases hrce : rc.isEmpty = true
      · obtain ⟨l, hl⟩ := extract_patches_recursive_ok kvs hwf
        simp [hf, hrce, hl, Except.bind, bind, pure, Except.pure, Except.isOk,
          Except.toBool]
      · have hrcf : rc.isEmpty = false := by
          revert hrce; cases rc.isEmpty <;> simp
        have hwfrc := find_children_wf kvs rc hwf hf
        obtain ⟨sets, hsets⟩ := rootSets_ok rc hwfrc
        by_cases hse : sets.isEmpty = true
        · obtain ⟨l, hl⟩ := extract_patches_recursive_ok kvs hwf
          simp [hf, hrcf, hsets, hse, hl, Except.bind, bind, pure, Except.pure,
            Except.isOk, Except.toBool]
        · have hsf : sets.isEmpty = false := by
            revert hse; cases sets.isEmpty <;> simp
          simp [hf, hrcf, hsets, hsf, Except.bind, bind, pure, Except.pure,
            Except.isOk, Except.toBool]

/-- Witness for C1: a one-set document with a patch-classed root child
is well-formed and extracts without raising. -/
theorem extract_total_on_wellformed_witness :
    WF (.vdict [("children", .vlist [.vdict [("class", .vstr "SongPatch"),
        ("name", .vstr "Lead")]])]) = true
    ∧ (extract_sets_and_patches [("children", .vlist [.vdict
        [("class", .vstr "SongPatch"), ("name", .vstr "Lead")]])]).isOk = true :=
  ⟨by decide, extract_total_on_wellformed _ (by decide)⟩

/-- Witness for C10: the strip parsed from an empty legacy channel dict
is an instrument with no MIDI channel and appears as a scene layer. -/
theorem legacy_strip_instrument_witness :
    (⟨"Strip", "instrument", none, none, 0, [], [("_legacy", .vbool true)]⟩
        : ChannelStrip).kind = "instrument"
    ∧ (⟨"Strip", "instrument", none, none, 0, [], [("_legacy", .vbool true)]⟩
        : ChannelStrip).midi_channel = none
    ∧ layer_from_strip
        ⟨"Strip", "instrument", none, none, 0, [], [("_legacy", .vbool true)]⟩
      ∈ (sceneLayers (scene_from_patch
          ⟨"P", [⟨"Strip", "instrument", none, none, 0, [],
                  [("_legacy", .vbool true)]⟩], []⟩ true)).getD [] := by
  have h := legacy_strip_instrument (fun _ => .error "e") (.vdict []) none
    ⟨"Strip", "instrument", none, none, 0, [], [("_legacy", .vbool true)]⟩ rfl
  exact ⟨h.1, h.2.1, h.2.2 _ true (by simp)⟩

end MSC
